import Mathlib

/-!
Twitch chat deduplicator: the cache engine of `content.js`.

A shallow embedding of the message cache of `src/content.js`: the `Map` that
holds the live messages, `normalise`, `levenshtein`, `similarity`,
`cleanCache`, and the body of the `MutationObserver` callback from the point
where the message text, the author and the added node are known (lines 105 to
214), called `ingest` here.

Modelling conventions.

* A JavaScript string is the list of its UTF-16 code units, `.length` is the
  length of that list and `s[i]` its `i`-th element.
* `Date.now()` values, `MESSAGE_CACHE_TIME` and `MAX_CACHE_SIZE` are integers.
* `LEVENSHTEIN_SIMILARITY_THRESHOLD` and the value of `similarity` are rational
  numbers: in the callback the arithmetic of `1 - dist / maxLen` is carried out
  exactly. The doubles the engine computes are modelled next to it
  (`nearestDouble`, `similarityDouble`, `testEntryDouble`); at the default
  threshold the two give the same tests (`testEntryDouble_default`).
* `String.prototype.toLowerCase` is a built-in of the host, not part of the
  repository; it is a field of the environment, so every statement holds for
  whatever function the host supplies.
* A DOM node is known only by its identity, a natural number.
* The `Map` is the list of its `(key, value)` pairs in insertion order.
-/

namespace ChatDedup

/-- One UTF-16 code unit. -/
abbrev CodeUnit := Nat

/-- A JavaScript string, as the list of its code units. -/
abbrev Str := List CodeUnit

/-- The identity of a DOM node. -/
abbrev Handle := Nat

/-- Code units of a string literal whose characters all lie in the basic plane. -/
def utf16 (s : String) : Str := s.toList.map Char.toNat

/-- The value stored under a key of `cache` (lines 207 to 213). -/
structure Entry where
  count : Nat
  lastSeen : Int
  node : Handle
  originalText : Str
  author : Str
deriving DecidableEq, Repr

/-- The `Map` named `cache` (line 38): its pairs in insertion order. -/
abbrev Cache := List (Str × Entry)

/-- What the script reads from its surroundings: five of the six settings of
lines 3 to 8 (`DEBUG` only switches logging), the variable `currentUser` of
line 240 and the host's `toLowerCase`. -/
structure Env where
  MESSAGE_CACHE_TIME : Int
  MAX_CACHE_SIZE : Int
  IGNORE_CASE : Bool
  USE_LEVENSHTEIN : Bool
  LEVENSHTEIN_SIMILARITY_THRESHOLD : ℚ
  currentUser : Str
  toLowerCase : Str → Str

/-- What the observer callback has extracted from an added node when it
reaches line 108: the trimmed text, the `data-a-user` attribute (or the empty
string) and the node itself. -/
structure Message where
  author : Str
  messageText : Str
  addedNode : Handle
deriving DecidableEq, Repr

/-- The branch the callback took for one message. -/
inductive Decision where
  | dropped
  | skipped
  | merged (matchKey : Str) (newCount : Nat) (isExact : Bool)
  | inserted
deriving DecidableEq, Repr

/-! ## `Map` operations -/

/-- `cache.get(key)`. -/
def mapGet (cache : Cache) (key : Str) : Option Entry :=
  (cache.find? (fun p => decide (p.1 = key))).map (fun p => p.2)

/-- `cache.has(key)`. -/
def mapHas (cache : Cache) (key : Str) : Bool :=
  cache.any (fun p => decide (p.1 = key))

/-- `cache.set(key, value)`: an existing key keeps its place, a new key goes
to the end. -/
def mapSet : Cache → Str → Entry → Cache
  | [], key, value => [(key, value)]
  | (k, e) :: rest, key, value =>
    if k = key then (k, value) :: rest else (k, e) :: mapSet rest key value

/-- `cache.delete(key)`. -/
def mapDelete (cache : Cache) (key : Str) : Cache :=
  cache.filter (fun p => decide (p.1 ≠ key))

/-! ## Text functions -/

/-- The code units matched by `\s` in a regular expression without flags. -/
def isWhiteSpace (c : CodeUnit) : Bool :=
  (9 ≤ c && c ≤ 13) || c == 32 || c == 160 || c == 5760 ||
  (8192 ≤ c && c ≤ 8202) || c == 8232 || c == 8233 || c == 8239 ||
  c == 8287 || c == 12288 || c == 65279

/-- `normalise` (lines 44 to 46). -/
def normalise (env : Env) (text : Str) : Str :=
  if env.IGNORE_CASE then env.toLowerCase text else text

/-- Inner loop of lines 53 to 56 for one row `i`: `up` is what is left of row
`i - 1` from column `j` on, `diag` is `matrix[i-1][j-1]` and `left` is
`matrix[i][j-1]`; the result is row `i` from column `j` on. -/
def fillRow (ai : CodeUnit) : Str → List Nat → Nat → Nat → List Nat
  | bj :: bs, up :: ups, diag, left =>
    let cost := if ai = bj then 0 else 1
    let cell := min (min (up + 1) (left + 1)) (diag + cost)
    cell :: fillRow ai bs ups up cell
  | _, _, _, _ => []

/-- Row `i` of the matrix from row `i - 1`: column 0 holds `i` (line 50). -/
def nextRow (b : Str) (prev : List Nat) (i : Nat) (ai : CodeUnit) : List Nat :=
  i :: fillRow ai b prev.tail (prev.headD 0) i

/-- Outer loop of lines 52 to 57: the last row of the matrix once the rest of
`a` has been consumed, `prev` being row `i - 1`. -/
def lastRow (b : Str) : Str → Nat → List Nat → List Nat
  | [], _, prev => prev
  | ai :: rest, i, prev => lastRow b rest (i + 1) (nextRow b prev i ai)

/-- `levenshtein` (lines 48 to 59): row 0 is `0, 1, ..., b.length` (line 51)
and the answer is the last cell of the last row. -/
def levenshtein (a b : Str) : Nat :=
  (lastRow b a 1 (List.range (b.length + 1))).getLastD 0

/-- `similarity` (lines 61 to 65). -/
def similarity (a b : Str) : ℚ :=
  let dist := levenshtein a b
  let maxLen := max a.length b.length
  if maxLen = 0 then 1 else 1 - (dist : ℚ) / (maxLen : ℚ)

/-- `isRepetitive` (line 132), the test of `/^([^\s])\1{2,}$/`: one code unit
that is not white space, followed by two or more copies of itself and nothing
else. -/
def isRepetitive (str : Str) : Bool :=
  match str with
  | [] => false
  | c :: rest => !isWhiteSpace c && decide (2 ≤ rest.length) && rest.all (fun d => d == c)

/-! ## `cleanCache` -/

/-- `cleanCache` (lines 67 to 79) at time `now`: walks the entries and deletes
by key each one whose age exceeds `MESSAGE_CACHE_TIME`. The second component
lists the deleted pairs, in the order of their deletion. -/
def cleanCache (env : Env) (now : Int) (cache : Cache) : Cache × List (Str × Entry) :=
  cache.foldl
    (fun acc p =>
      if now - p.2.lastSeen > env.MESSAGE_CACHE_TIME then
        (mapDelete acc.1 p.1, acc.2 ++ [p])
      else acc)
    (cache, [])

/-! ## The observer callback -/

/-- The tests of lines 119 to 151 on one entry: `none` when the scan moves on,
`some isExact` when it stops at this entry. -/
def testEntry (env : Env) (normalisedText : Str) (addedNode : Handle) (entry : Entry) :
    Option Bool :=
  let cachedText := normalise env entry.originalText
  if entry.node = addedNode then none
  else if normalisedText = cachedText then some true
  else if isRepetitive normalisedText && isRepetitive cachedText &&
      decide (normalisedText.head? = cachedText.head?) then some false
  else if env.USE_LEVENSHTEIN && decide (normalisedText.length ≤ 100) &&
      decide (cachedText.length ≤ 100) then
    if similarity normalisedText cachedText ≥ env.LEVENSHTEIN_SIMILARITY_THRESHOLD then
      some false
    else none
  else none

/-- The loop of lines 118 to 152: `matchKey` and `isExact` at its end. -/
def scan (env : Env) (normalisedText : Str) (addedNode : Handle) :
    Cache → Option (Str × Bool)
  | [] => none
  | (key, entry) :: rest =>
    match testEntry env normalisedText addedNode entry with
    | some isExact => some (key, isExact)
    | none => scan env normalisedText addedNode rest

/-- The loop of lines 195 to 200; `oldestTime = none` stands for `Infinity`. -/
def findOldest : Cache → Option Str → Option Int → Option Str
  | [], oldestKey, _ => oldestKey
  | (key, data) :: rest, oldestKey, oldestTime =>
    if (match oldestTime with
        | none => true
        | some t => decide (data.lastSeen < t)) then
      findOldest rest (some key) (some data.lastSeen)
    else findOldest rest oldestKey oldestTime

/-- Lines 192 to 205: the cache after the capacity check. The test
`if (oldestKey)` fails for `null` and for the empty string. -/
def evictOldest (env : Env) (cache : Cache) : Cache :=
  if (cache.length : Int) ≥ env.MAX_CACHE_SIZE then
    match findOldest cache none none with
    | some oldestKey => if oldestKey ≠ [] then mapDelete cache oldestKey else cache
    | none => cache
  else cache

/-- The entry written by lines 207 to 213. -/
def newEntry (msg : Message) (now : Int) : Entry :=
  { count := 1, lastSeen := now, node := msg.addedNode,
    originalText := msg.messageText, author := msg.author }

/-- The `else` branch of lines 188 to 214. -/
def insertNew (env : Env) (msg : Message) (now : Int) (cache : Cache) : Cache :=
  mapSet (evictOldest env cache) msg.messageText (newEntry msg now)

/-- The entry after lines 156 and 157. -/
def bump (now : Int) (entry : Entry) : Entry :=
  { entry with count := entry.count + 1, lastSeen := now }

/-- The callback body for one added node, lines 105 to 214, at time `now`. -/
def ingest (env : Env) (msg : Message) (now : Int) (cache : Cache) : Cache × Decision :=
  if msg.messageText = [] then (cache, Decision.dropped)
  else
    let normalisedText := normalise env msg.messageText
    if env.toLowerCase msg.author = env.currentUser then (cache, Decision.skipped)
    else
      match scan env normalisedText msg.addedNode cache with
      | some (matchKey, isExact) =>
        match mapGet cache matchKey with
        | some entry =>
          (mapSet cache matchKey (bump now entry),
            Decision.merged matchKey (entry.count + 1) isExact)
        | none => (insertNew env msg now cache, Decision.inserted)
      | none => (insertNew env msg now cache, Decision.inserted)

/-- The digits printed for `${entry.count}`: the decimal digits of the count
(for a count below `10^21`, where JavaScript prints an integer in full). -/
def decimal (n : Nat) : Str := (Nat.toDigits 10 n).map Char.toNat

/-- The template of line 165 for an entry: the two code units of U+1F465, a
space, U+00D7, the count, a colon, a space and `originalText`. -/
def displayText (entry : Entry) : Str :=
  [55357, 56421, 32, 215] ++ decimal entry.count ++ [58, 32] ++ entry.originalText

/-- What line 165 writes into the message body of `entry.node` (when that
span is found) for one message: `entry` is `cache.get(matchKey)` after lines
156 and 157; nothing is written unless the callback merges. -/
def writtenText (env : Env) (msg : Message) (now : Int) (cache : Cache) : Option Str :=
  match (ingest env msg now cache).2 with
  | Decision.merged matchKey _ _ =>
    (mapGet (ingest env msg now cache).1 matchKey).map displayText
  | _ => none

/-! ## The numbers of `similarity`, as doubles -/

/-- Number of binary digits of `n`, for `fuel` at least that number. -/
def bitLength : Nat → Nat → Nat
  | 0, _ => 0
  | fuel + 1, n => if n = 0 then 0 else bitLength fuel (n / 2) + 1

/-- The binary exponent of the positive fraction `n / d`: the `e` with
`2 ^ e ≤ n / d < 2 ^ (e + 1)`. -/
def binaryExponent (n d : Nat) : Int :=
  if d ≤ n then (bitLength (n / d) (n / d) : Int) - 1
  else -(bitLength ((d - 1) / n) ((d - 1) / n) : Int)

/-- The IEEE 754 double nearest to `n / d`, ties going to the even
significand, as a fraction `(numerator, denominator)`: 53 significant bits,
exponents from -1022 up (overflow, beyond `2 ^ 1024`, is not modelled). This
is what `/` and `-` return for the exact quotient or difference `n / d`. -/
def nearestDouble (n d : Nat) : Nat × Nat :=
  if n = 0 then (0, 1)
  else
    match max (binaryExponent n d) (-1022) - 52 with
    | Int.ofNat s =>
      let den := d * 2 ^ s
      let f := n / den
      let r := n % den
      let k := if 2 * r < den then f else if den < 2 * r then f + 1
        else if f % 2 = 0 then f else f + 1
      (k * 2 ^ s, 1)
    | Int.negSucc s =>
      let num := n * 2 ^ (s + 1)
      let f := num / d
      let r := num % d
      let k := if 2 * r < d then f else if d < 2 * r then f + 1
        else if f % 2 = 0 then f else f + 1
      (k, 2 ^ (s + 1))

/-- The rational number a fraction stands for. -/
def doubleValue (x : Nat × Nat) : ℚ := (x.1 : ℚ) / (x.2 : ℚ)

/-- `similarity` (lines 61 to 65) in the arithmetic of the engine: the
quotient `dist / maxLen` is rounded to a double `q`, and `1 - q` is rounded
again. `dist` never exceeds `maxLen`, so `q` is at most 1. -/
def similarityDouble (a b : Str) : Nat × Nat :=
  let dist := levenshtein a b
  let maxLen := max a.length b.length
  if maxLen = 0 then (1, 1)
  else
    let q := nearestDouble dist maxLen
    nearestDouble (q.2 - q.1) q.2

/-- The fuzzy test of lines 143 to 145 with `similarity` computed in doubles;
the threshold of the environment is the value of the double the setting
holds. -/
def fuzzyTestDouble (env : Env) (a b : Str) : Bool :=
  env.USE_LEVENSHTEIN && decide (a.length ≤ 100) && decide (b.length ≤ 100) &&
    decide (doubleValue (similarityDouble a b) ≥ env.LEVENSHTEIN_SIMILARITY_THRESHOLD)

/-- The tests of lines 119 to 151 on one entry, with `similarity` computed in
doubles. -/
def testEntryDouble (env : Env) (normalisedText : Str) (addedNode : Handle) (entry : Entry) :
    Option Bool :=
  let cachedText := normalise env entry.originalText
  if entry.node = addedNode then none
  else if normalisedText = cachedText then some true
  else if isRepetitive normalisedText && isRepetitive cachedText &&
      decide (normalisedText.head? = cachedText.head?) then some false
  else if env.USE_LEVENSHTEIN && decide (normalisedText.length ≤ 100) &&
      decide (cachedText.length ≤ 100) then
    if doubleValue (similarityDouble normalisedText cachedText) ≥
        env.LEVENSHTEIN_SIMILARITY_THRESHOLD then
      some false
    else none
  else none

/-- Whether, for every `maxLen` from 1 to `len` and every `dist` up to
`maxLen`, the doubles `1 - dist / maxLen` and `0.9` compare as the exact
numbers `1 - dist / maxLen` and `9 / 10` do. -/
def agreesUpTo (len : Nat) : Bool :=
  (List.range (len + 1)).all (fun m =>
    (List.range (m + 1)).all (fun d =>
      m == 0 ||
        (decide ((nearestDouble 9 10).1 * (nearestDouble
              ((nearestDouble d m).2 - (nearestDouble d m).1) (nearestDouble d m).2).2 ≤
            (nearestDouble
              ((nearestDouble d m).2 - (nearestDouble d m).1) (nearestDouble d m).2).1 *
              (nearestDouble 9 10).2) ==
          decide (9 * m + 10 * d ≤ 10 * m))))

/-! ## Runs of calls -/

/-- One call into the engine: a message handled at a time, or the timer of
line 34 firing at a time. -/
inductive Call where
  | ingest (msg : Message) (now : Int)
  | sweep (now : Int)
deriving DecidableEq, Repr

/-- The cache after one call. -/
def step (env : Env) (cache : Cache) : Call → Cache
  | Call.ingest msg now => (ingest env msg now cache).1
  | Call.sweep now => (cleanCache env now cache).1

/-- The cache after a sequence of calls. -/
def run (env : Env) (cache : Cache) (calls : List Call) : Cache :=
  calls.foldl (step env) cache

/-- The cache and the decisions, in order, after a sequence of messages. -/
def ingestAll (env : Env) : Cache → List (Message × Int) → Cache × List Decision
  | cache, [] => (cache, [])
  | cache, (msg, now) :: rest =>
    let r := ingest env msg now cache
    let s := ingestAll env r.1 rest
    (s.1, r.2 :: s.2)

/-! ## The three tests, one by one -/

/-- The repetition test of lines 134 to 138 on two normalised texts. -/
def repetitionTest (a b : Str) : Bool :=
  isRepetitive a && isRepetitive b && decide (a.head? = b.head?)

/-- The fuzzy test of lines 143 to 145 on two normalised texts: the setting is
on, neither text is longer than 100 and the similarity reaches the threshold. -/
def fuzzyTest (env : Env) (a b : Str) : Bool :=
  env.USE_LEVENSHTEIN && decide (a.length ≤ 100) && decide (b.length ≤ 100) &&
    decide (similarity a b ≥ env.LEVENSHTEIN_SIMILARITY_THRESHOLD)

/-- The entry is one the scan looks at for a message on node `addedNode`
(line 122). -/
abbrev scanned (addedNode : Handle) (entry : Entry) : Prop := entry.node ≠ addedNode

/-- Two normalised texts match: they are equal, or they pass the repetition
test, or they pass the fuzzy test. -/
def textsMatch (env : Env) (a b : Str) : Prop :=
  a = b ∨ repetitionTest a b = true ∨ fuzzyTest env a b = true

/-- The nodes of the messages handled in a sequence of calls, in order. -/
def handlesOf : List Call → List Handle
  | [] => []
  | Call.ingest msg _ :: rest => msg.addedNode :: handlesOf rest
  | Call.sweep _ :: rest => handlesOf rest

/-- The normalised texts of the entries, in map order. -/
def normalisedTexts (env : Env) (cache : Cache) : List Str :=
  cache.map (fun p => normalise env p.2.originalText)

/-- What holds of every cache reached with a new node for every message: each
key is the text of its entry, and no entry matches a later one. -/
def Separated (env : Env) (cache : Cache) : Prop :=
  (∀ p ∈ cache, p.1 = p.2.originalText) ∧
    (normalisedTexts env cache).Pairwise (fun a b => ¬ textsMatch env a b)

/-! ## Properties of cache states -/

/-- No key of the cache is the empty string: the callback drops a message
without text at line 106, before anything is stored. -/
def KeysNonEmpty (cache : Cache) : Prop := ∀ p ∈ cache, p.1 ≠ []

/-- The keys of a `Map` are pairwise different. -/
def KeysDistinct (cache : Cache) : Prop := (cache.map Prod.fst).Nodup

instance (cache : Cache) : Decidable (KeysNonEmpty cache) :=
  inferInstanceAs (Decidable (∀ p ∈ cache, p.1 ≠ []))

instance (cache : Cache) : Decidable (KeysDistinct cache) :=
  inferInstanceAs (Decidable (cache.map Prod.fst).Nodup)

/-! ## Edit distance, by the textbook recursion -/

/-- Edit distance of `x :: xs` to each string, given the length of `xs` and
the edit distance of `xs` to each string. -/
def editTail (x : CodeUnit) (n : Nat) (f : Str → Nat) : Str → Nat
  | [] => n + 1
  | y :: ys =>
    min (min (f (y :: ys) + 1) (editTail x n f ys + 1)) (f ys + if x = y then 0 else 1)

/-- The least number of insertions, deletions and substitutions of one code
unit that turn the first string into the second, by recursion on the heads of
the two strings. -/
def editDistance : Str → Str → Nat
  | [], ys => ys.length
  | x :: xs, ys => editTail x xs.length (editDistance xs) ys

/-- Row of the matrix for a prefix of `a`, to the right of the column of the
prefix of `b` whose reversal is `rq`: `g` gives the cell for each reversed
prefix of `b`. -/
def rowFrom (g : Str → Nat) : Str → Str → List Nat
  | _, [] => []
  | rq, y :: ys => g (y :: rq) :: rowFrom g (y :: rq) ys

/-- `EditScript a b n`: some sequence of deletions, insertions and
substitutions of one code unit, `n` of them in all, turns `a` into `b`; code
units left in place cost nothing. -/
inductive EditScript : Str → Str → Nat → Prop where
  | done : EditScript [] [] 0
  | delete (x : CodeUnit) {xs ys : Str} {n : Nat} :
      EditScript xs ys n → EditScript (x :: xs) ys (n + 1)
  | insert (y : CodeUnit) {xs ys : Str} {n : Nat} :
      EditScript xs ys n → EditScript xs (y :: ys) (n + 1)
  | keep (x : CodeUnit) {xs ys : Str} {n : Nat} :
      EditScript xs ys n → EditScript (x :: xs) (x :: ys) n
  | substitute (x y : CodeUnit) {xs ys : Str} {n : Nat} :
      EditScript xs ys n → EditScript (x :: xs) (y :: ys) (n + 1)

/-! ## Sample environments -/

/-- Lower-casing of strings made of ASCII and U+0130 only, where it agrees
with the built-in: `A`..`Z` go to `a`..`z`, and U+0130 (capital I with dot
above) goes to the two code units U+0069 U+0307. -/
def sampleLower (s : Str) : Str :=
  s.flatMap (fun c =>
    if 65 ≤ c ∧ c ≤ 90 then [c + 32] else if c = 304 then [105, 775] else [c])

/-- The settings of lines 3 to 8 with a given user name. -/
def defaultEnv (user : Str) : Env :=
  { MESSAGE_CACHE_TIME := 60000, MAX_CACHE_SIZE := 10000, IGNORE_CASE := true,
    USE_LEVENSHTEIN := true, LEVENSHTEIN_SIMILARITY_THRESHOLD := 9 / 10,
    currentUser := user, toLowerCase := sampleLower }

/-- The default settings with room for two entries only. -/
def smallEnv : Env := { defaultEnv (utf16 "me") with MAX_CACHE_SIZE := 2 }

/-- Three messages from three authors, then a firing of the timer. -/
def sampleCalls : List Call :=
  [Call.ingest ⟨utf16 "ann", utf16 "hello", 1⟩ 1000,
   Call.ingest ⟨utf16 "bob", utf16 "???", 2⟩ 2000,
   Call.ingest ⟨utf16 "cy", utf16 "good game", 3⟩ 3000,
   Call.sweep 70000]

/-- A first `hello`, handled at time 1000 on node 1. -/
def helloFirst : Message × Int := (⟨utf16 "ann", utf16 "hello", 1⟩, 1000)

/-- Two more `hello`, from other authors on other nodes. -/
def helloOthers : List (Message × Int) :=
  [(⟨utf16 "bob", utf16 "hello", 2⟩, 2000), (⟨utf16 "cy", utf16 "hello", 3⟩, 3000)]

/-- A cache that holds `????` and, after it, `???`. -/
def runsCache : Cache :=
  [(utf16 "????", ⟨1, 1000, 1, utf16 "????", utf16 "ann"⟩),
   (utf16 "???", ⟨1, 2000, 2, utf16 "???", utf16 "bob"⟩)]

/-- A cache that holds `good game` and, after it, `hello`. -/
def greetCache : Cache :=
  [(utf16 "good game", ⟨1, 1000, 1, utf16 "good game", utf16 "ann"⟩),
   (utf16 "hello", ⟨4, 2000, 2, utf16 "hello", utf16 "bob"⟩)]

/-- A cache that holds `hello worlt` and, after it, `hello world!`: the second
is closer to `hello world` than the first, and the two are too far apart to
match one another. -/
def worldCache : Cache :=
  [(utf16 "hello worlt", ⟨1, 1000, 1, utf16 "hello worlt", utf16 "ann"⟩),
   (utf16 "hello world!", ⟨1, 2000, 2, utf16 "hello world!", utf16 "bob"⟩)]

/-- Three entries last seen at times 1000, 1001 and 5000. -/
def agedCache : Cache :=
  [(utf16 "hello", ⟨2, 1000, 1, utf16 "hello", utf16 "ann"⟩),
   (utf16 "good game", ⟨1, 1001, 2, utf16 "good game", utf16 "bob"⟩),
   (utf16 "???", ⟨3, 5000, 3, utf16 "???", utf16 "cy"⟩)]

/-- The default settings with room for two entries only and the fuzzy test
switched off. -/
def plainEnv : Env := { smallEnv with USE_LEVENSHTEIN := false }

/-- A full cache of two: `hello`, stored first and seen again at time 3000,
and `good game`, stored second and last seen at time 2000. -/
def refreshedCache : Cache :=
  [(utf16 "hello", ⟨2, 3000, 1, utf16 "hello", utf16 "ann"⟩),
   (utf16 "good game", ⟨1, 2000, 2, utf16 "good game", utf16 "bob"⟩)]

/-- A string of 101 code units: a hundred `a` and one `b`. -/
def longB : Str := List.replicate 100 97 ++ [98]

/-- A string of 101 code units: a hundred `a` and one `c`. -/
def longC : Str := List.replicate 100 97 ++ [99]

/-- A cache that holds three times U+0130, capital I with dot above. -/
def dottedCache : Cache := [([304, 304, 304], ⟨1, 1000, 1, [304, 304, 304], utf16 "ann"⟩)]

/-- The messages `???` and `??????`, from two authors on two nodes. -/
def questionMarks : List (Message × Int) :=
  [(⟨utf16 "ann", utf16 "???", 1⟩, 1000), (⟨utf16 "bob", utf16 "??????", 2⟩, 2000)]

/-- A cache that holds only `??`. -/
def shortRunCache : Cache := [(utf16 "??", ⟨1, 1000, 1, utf16 "??", utf16 "ann"⟩)]

/-- A cache that holds only `???`. -/
def runCache : Cache := [(utf16 "???", ⟨1, 1000, 1, utf16 "???", utf16 "ann"⟩)]

/-- The default settings while no user has been detected: `currentUser` still
has its initial value, the empty string (line 240). -/
def undetectedEnv : Env := defaultEnv []

/-- The default settings with `IGNORE_CASE` switched off. -/
def caseEnv : Env := { defaultEnv (utf16 "me") with IGNORE_CASE := false }

/-- A cache that holds only `hello world`. -/
def lowerWorldCache : Cache :=
  [(utf16 "hello world", ⟨1, 1000, 1, utf16 "hello world", utf16 "ann"⟩)]

/-- A cache that holds only `hello`. -/
def lowerHelloCache : Cache := [(utf16 "hello", ⟨1, 1000, 1, utf16 "hello", utf16 "ann"⟩)]

/-- Two messages, a firing of the timer and a third message, each message on
a node of its own. -/
def freshCalls : List Call :=
  [Call.ingest ⟨utf16 "ann", utf16 "hello", 1⟩ 1000,
   Call.ingest ⟨utf16 "bob", utf16 "good game", 2⟩ 2000,
   Call.sweep 3000,
   Call.ingest ⟨utf16 "cy", utf16 "hello", 3⟩ 3500]

/-- The settings of lines 3 to 8 with the threshold as the engine holds it:
the double nearest to 0.9. -/
def doubleEnv (user : Str) : Env :=
  { defaultEnv user with LEVENSHTEIN_SIMILARITY_THRESHOLD := doubleValue (nearestDouble 9 10) }

/-- The default settings with the threshold set to 0.2, held as a double. -/
def fifthEnv : Env :=
  { defaultEnv (utf16 "me") with LEVENSHTEIN_SIMILARITY_THRESHOLD := doubleValue (nearestDouble 1 5) }

/-- The default settings with the threshold set to one half. -/
def halfEnv : Env :=
  { defaultEnv (utf16 "me") with LEVENSHTEIN_SIMILARITY_THRESHOLD := 1 / 2 }

/-- A cache that holds only U+0130, capital I with dot above. -/
def dottedOneCache : Cache := [([304], ⟨1, 1000, 1, [304], utf16 "ann"⟩)]

/-- Three times U+1F600, a character of two code units. -/
def grinningRun3 : Str := [55357, 56832, 55357, 56832, 55357, 56832]

/-- Four times U+1F600. -/
def grinningRun4 : Str := [55357, 56832, 55357, 56832, 55357, 56832, 55357, 56832]

/-! ## The matrix of `levenshtein` holds edit distances of prefixes -/

theorem editDistance_nil_right (xs : Str) : editDistance xs [] = xs.length := by
  cases xs <;> rfl

theorem editDistance_cons_cons (x y : CodeUnit) (xs ys : Str) :
    editDistance (x :: xs) (y :: ys) =
      min (min (editDistance xs (y :: ys) + 1) (editDistance (x :: xs) ys + 1))
        (editDistance xs ys + if x = y then 0 else 1) := rfl

theorem fillRow_rowFrom (ai : CodeUnit) (rp : Str) (bs rq : Str) :
    fillRow ai bs (rowFrom (editDistance rp) rq bs) (editDistance rp rq)
        (editDistance (ai :: rp) rq) =
      rowFrom (editDistance (ai :: rp)) rq bs := by
  induction bs generalizing rq with
  | nil => simp [fillRow, rowFrom]
  | cons y ys ih =>
    simp only [rowFrom, fillRow]
    rw [← editDistance_cons_cons ai y rp rq, ih (y :: rq)]

theorem nextRow_rowFrom (ai : CodeUnit) (rp b : Str) :
    nextRow b (editDistance rp [] :: rowFrom (editDistance rp) [] b) (rp.length + 1) ai =
      editDistance (ai :: rp) [] :: rowFrom (editDistance (ai :: rp)) [] b := by
  have h := fillRow_rowFrom ai rp b []
  simp only [editDistance_nil_right, List.length_cons] at h
  simp only [nextRow, editDistance_nil_right, List.tail_cons, List.headD_cons,
    List.length_cons]
  rw [h]

theorem lastRow_rowFrom (b rest rp : Str) :
    lastRow b rest (rp.length + 1) (editDistance rp [] :: rowFrom (editDistance rp) [] b) =
      editDistance (rest.reverse ++ rp) [] ::
        rowFrom (editDistance (rest.reverse ++ rp)) [] b := by
  induction rest generalizing rp with
  | nil => simp [lastRow]
  | cons ai rest ih =>
    simp only [lastRow]
    rw [nextRow_rowFrom]
    have := ih (ai :: rp)
    simp only [List.length_cons] at this
    rw [this]
    simp

theorem rowFrom_range (rq bs : Str) :
    rowFrom (editDistance []) rq bs = List.range' (rq.length + 1) bs.length := by
  induction bs generalizing rq with
  | nil => simp [rowFrom]
  | cons y ys ih =>
    simp only [rowFrom, List.length_cons, List.range'_succ]
    rw [ih (y :: rq)]
    simp [editDistance]

theorem getLastD_rowFrom (g : Str → Nat) (rq bs : Str) :
    (g rq :: rowFrom g rq bs).getLastD 0 = g (bs.reverse ++ rq) := by
  induction bs generalizing rq with
  | nil => simp [rowFrom]
  | cons y ys ih =>
    have := ih (y :: rq)
    simp only [rowFrom]
    simp only [List.getLastD_cons] at this ⊢
    simpa using this

/-- The value of `levenshtein` is the edit distance of the reversed strings:
the matrix is filled from the first code units on, so that its recursion runs
over the last code unit of each prefix. -/
theorem levenshtein_eq_editDistance_reverse (a b : Str) :
    levenshtein a b = editDistance a.reverse b.reverse := by
  unfold levenshtein
  have h0 : List.range (b.length + 1) =
      editDistance [] [] :: rowFrom (editDistance []) [] b := by
    rw [rowFrom_range, List.range_eq_range', List.range'_succ]
    simp [editDistance]
  rw [h0]
  have := lastRow_rowFrom b a []
  simp only [List.length_nil, Nat.zero_add, List.append_nil] at this
  rw [this, editDistance_nil_right]
  have h2 := getLastD_rowFrom (editDistance a.reverse) [] b
  rw [editDistance_nil_right] at h2
  simpa using h2

/-! ## Edit distance and edit scripts -/

theorem editDistance_cons_le (x : CodeUnit) (xs ys : Str) :
    editDistance (x :: xs) ys ≤ editDistance xs ys + 1 := by
  cases ys with
  | nil => simp [editDistance_nil_right]
  | cons y ys => rw [editDistance_cons_cons]; omega

theorem editDistance_le_cons (y : CodeUnit) (xs ys : Str) :
    editDistance xs (y :: ys) ≤ editDistance xs ys + 1 := by
  cases xs with
  | nil => simp [editDistance]
  | cons x xs => rw [editDistance_cons_cons]; omega

theorem editDistance_cons_cons_le (x y : CodeUnit) (xs ys : Str) :
    editDistance (x :: xs) (y :: ys) ≤ editDistance xs ys + if x = y then 0 else 1 := by
  rw [editDistance_cons_cons]; omega

theorem editDistance_le_of_script {a b : Str} {n : Nat} (h : EditScript a b n) :
    editDistance a b ≤ n := by
  induction h with
  | done => simp [editDistance]
  | delete x _ ih => exact (editDistance_cons_le x _ _).trans (by omega)
  | insert y _ ih => exact (editDistance_le_cons y _ _).trans (by omega)
  | @keep x xs ys n _ ih =>
    have := editDistance_cons_cons_le x x xs ys
    simp only [if_true] at this
    omega
  | @substitute x y xs ys n _ ih =>
    have := editDistance_cons_cons_le x y xs ys
    split at this <;> omega

theorem editScript_nil_left (b : Str) : EditScript [] b b.length := by
  induction b with
  | nil => exact EditScript.done
  | cons y ys ih => exact EditScript.insert y ih

theorem editScript_nil_right (a : Str) : EditScript a [] a.length := by
  induction a with
  | nil => exact EditScript.done
  | cons x xs ih => exact EditScript.delete x ih

theorem editScript_editDistance (a b : Str) : EditScript a b (editDistance a b) := by
  induction a generalizing b with
  | nil => exact editScript_nil_left b
  | cons x xs iha =>
    induction b with
    | nil => rw [editDistance_nil_right]; exact editScript_nil_right _
    | cons y ys ihb =>
      rw [editDistance_cons_cons]
      have h1 := EditScript.delete x (iha (y :: ys))
      have h2 := EditScript.insert y ihb
      have h3 : EditScript (x :: xs) (y :: ys)
          (editDistance xs ys + if x = y then 0 else 1) := by
        by_cases hxy : x = y
        · subst hxy; simpa using EditScript.keep x (iha ys)
        · simpa [hxy] using EditScript.substitute x y (iha ys)
      rcases Nat.le_total (editDistance xs (y :: ys) + 1) (editDistance (x :: xs) ys + 1)
        with h | h
      · rcases Nat.le_total (editDistance xs (y :: ys) + 1)
          (editDistance xs ys + if x = y then 0 else 1) with h' | h'
        · rw [Nat.min_eq_left h, Nat.min_eq_left h']; exact h1
        · rw [Nat.min_eq_left h, Nat.min_eq_right h']; exact h3
      · rcases Nat.le_total (editDistance (x :: xs) ys + 1)
          (editDistance xs ys + if x = y then 0 else 1) with h' | h'
        · rw [Nat.min_eq_right h, Nat.min_eq_left h']; exact h2
        · rw [Nat.min_eq_right h, Nat.min_eq_right h']; exact h3

theorem editScript_snoc_delete {a b : Str} {n : Nat} (h : EditScript a b n) (x : CodeUnit) :
    EditScript (a ++ [x]) b (n + 1) := by
  induction h with
  | done => exact EditScript.delete x EditScript.done
  | delete z _ ih => exact EditScript.delete z ih
  | insert z _ ih => exact EditScript.insert z ih
  | keep z _ ih => exact EditScript.keep z ih
  | substitute z w _ ih => exact EditScript.substitute z w ih

theorem editScript_snoc_insert {a b : Str} {n : Nat} (h : EditScript a b n) (y : CodeUnit) :
    EditScript a (b ++ [y]) (n + 1) := by
  induction h with
  | done => exact EditScript.insert y EditScript.done
  | delete z _ ih => exact EditScript.delete z ih
  | insert z _ ih => exact EditScript.insert z ih
  | keep z _ ih => exact EditScript.keep z ih
  | substitute z w _ ih => exact EditScript.substitute z w ih

theorem editScript_snoc_keep {a b : Str} {n : Nat} (h : EditScript a b n) (x : CodeUnit) :
    EditScript (a ++ [x]) (b ++ [x]) n := by
  induction h with
  | done => exact EditScript.keep x EditScript.done
  | delete z _ ih => exact EditScript.delete z ih
  | insert z _ ih => exact EditScript.insert z ih
  | keep z _ ih => exact EditScript.keep z ih
  | substitute z w _ ih => exact EditScript.substitute z w ih

theorem editScript_snoc_substitute {a b : Str} {n : Nat} (h : EditScript a b n)
    (x y : CodeUnit) : EditScript (a ++ [x]) (b ++ [y]) (n + 1) := by
  induction h with
  | done => exact EditScript.substitute x y EditScript.done
  | delete z _ ih => exact EditScript.delete z ih
  | insert z _ ih => exact EditScript.insert z ih
  | keep z _ ih => exact EditScript.keep z ih
  | substitute z w _ ih => exact EditScript.substitute z w ih

theorem editScript_reverse {a b : Str} {n : Nat} (h : EditScript a b n) :
    EditScript a.reverse b.reverse n := by
  induction h with
  | done => exact EditScript.done
  | delete z _ ih => rw [List.reverse_cons]; exact editScript_snoc_delete ih z
  | insert z _ ih => rw [List.reverse_cons]; exact editScript_snoc_insert ih z
  | keep z _ ih => rw [List.reverse_cons, List.reverse_cons]; exact editScript_snoc_keep ih z
  | substitute z w _ ih =>
    rw [List.reverse_cons, List.reverse_cons]; exact editScript_snoc_substitute ih z w

theorem editDistance_reverse (a b : Str) :
    editDistance a.reverse b.reverse = editDistance a b := by
  apply Nat.le_antisymm
  · exact editDistance_le_of_script (editScript_reverse (editScript_editDistance a b))
  · have := editDistance_le_of_script
      (editScript_reverse (editScript_editDistance a.reverse b.reverse))
    simpa using this

/-- The value of `levenshtein` is the edit distance of its arguments. -/
theorem levenshtein_eq_editDistance (a b : Str) : levenshtein a b = editDistance a b := by
  rw [levenshtein_eq_editDistance_reverse, editDistance_reverse]

/-! ## Facts about the `Map` operations -/

theorem mem_mapSet {cache : Cache} {key : Str} {value : Entry} {p : Str × Entry}
    (h : p ∈ mapSet cache key value) : p = (key, value) ∨ p ∈ cache := by
  induction cache with
  | nil => simpa [mapSet] using h
  | cons q rest ih =>
    obtain ⟨k, e⟩ := q
    unfold mapSet at h
    split at h
    · rename_i hk
      rcases List.mem_cons.1 h with h | h
      · left; rw [h, hk]
      · right; exact List.mem_cons_of_mem _ h
    · rcases List.mem_cons.1 h with h | h
      · right; rw [h]; exact List.mem_cons_self _ _
      · rcases ih h with h | h
        · left; exact h
        · right; exact List.mem_cons_of_mem _ h

theorem length_mapSet_le (cache : Cache) (key : Str) (value : Entry) :
    (mapSet cache key value).length ≤ cache.length + 1 := by
  induction cache with
  | nil => simp [mapSet]
  | cons q rest ih =>
    obtain ⟨k, e⟩ := q
    unfold mapSet
    split
    · simp
    · simp only [List.length_cons]; omega

theorem mapGet_some_mem {cache : Cache} {key : Str} {e : Entry}
    (h : mapGet cache key = some e) : (key, e) ∈ cache := by
  unfold mapGet at h
  rcases hf : cache.find? (fun p => decide (p.1 = key)) with _ | p
  · rw [hf] at h; simp at h
  · rw [hf] at h
    have hp := List.find?_some hf
    have hm := List.mem_of_find?_eq_some hf
    simp only [Option.map_some', Option.some.injEq] at h
    simp only [decide_eq_true_eq] at hp
    obtain ⟨k, e'⟩ := p
    simp only at hp h
    subst hp; subst h
    exact hm

theorem length_mapSet_of_mem {cache : Cache} {key : Str} {e : Entry} (value : Entry)
    (h : (key, e) ∈ cache) : (mapSet cache key value).length = cache.length := by
  induction cache with
  | nil => simp at h
  | cons q rest ih =>
    obtain ⟨k, e'⟩ := q
    unfold mapSet
    split
    · simp
    · rename_i hk
      rcases List.mem_cons.1 h with h | h
      · exact absurd (congrArg Prod.fst h).symm hk
      · simp [ih h]

theorem length_mapDelete_lt {cache : Cache} {key : Str} {e : Entry}
    (h : (key, e) ∈ cache) : (mapDelete cache key).length < cache.length := by
  unfold mapDelete
  apply List.length_filter_lt_length_iff_exists.2
  exact ⟨(key, e), h, by simp⟩

theorem mapDelete_sublist (cache : Cache) (key : Str) :
    (mapDelete cache key).Sublist cache :=
  List.filter_sublist _

/-! ## The oldest entry -/

theorem findOldest_mem (cache : Cache) (k0 : Option Str) (t0 : Option Int) {k : Str}
    (h : findOldest cache k0 t0 = some k) : k0 = some k ∨ ∃ e, (k, e) ∈ cache := by
  induction cache generalizing k0 t0 with
  | nil => left; simpa [findOldest] using h
  | cons q rest ih =>
    obtain ⟨key, data⟩ := q
    unfold findOldest at h
    split at h
    · rcases ih _ _ h with h' | ⟨e, he⟩
      · right
        simp only [Option.some.injEq] at h'
        exact ⟨data, by rw [← h']; exact List.mem_cons_self _ _⟩
      · right; exact ⟨e, List.mem_cons_of_mem _ he⟩
    · rcases ih _ _ h with h' | ⟨e, he⟩
      · left; exact h'
      · right; exact ⟨e, List.mem_cons_of_mem _ he⟩

theorem findOldest_isSome_of_some (cache : Cache) (k0 : Str) (t0 : Option Int) :
    ∃ k, findOldest cache (some k0) t0 = some k := by
  induction cache generalizing k0 t0 with
  | nil => exact ⟨k0, rfl⟩
  | cons q rest ih =>
    obtain ⟨key, data⟩ := q
    unfold findOldest
    split
    · exact ih _ _
    · exact ih _ _

theorem findOldest_cons_none (q : Str × Entry) (rest : Cache) :
    findOldest (q :: rest) none none = findOldest rest (some q.1) (some q.2.lastSeen) := by
  obtain ⟨key, data⟩ := q
  simp [findOldest]

theorem findOldest_exists {cache : Cache} (h : cache ≠ []) :
    ∃ k e, findOldest cache none none = some k ∧ (k, e) ∈ cache := by
  cases cache with
  | nil => exact absurd rfl h
  | cons q rest =>
    obtain ⟨k, hk⟩ := findOldest_isSome_of_some rest q.1 (some q.2.lastSeen)
    have hk' : findOldest (q :: rest) none none = some k := by
      rw [findOldest_cons_none]; exact hk
    rcases findOldest_mem _ _ _ hk' with h' | ⟨e, he⟩
    · simp at h'
    · exact ⟨k, e, hk', he⟩

/-! ## Invariants of the cache -/

theorem scan_some {env : Env} {t : Str} {h : Handle} {cache : Cache} {k : Str} {ex : Bool}
    (hs : scan env t h cache = some (k, ex)) :
    ∃ e, (k, e) ∈ cache ∧ testEntry env t h e = some ex := by
  induction cache with
  | nil => simp [scan] at hs
  | cons q rest ih =>
    obtain ⟨key, entry⟩ := q
    unfold scan at hs
    split at hs
    · rename_i isExact hq
      simp only [Option.some.injEq, Prod.mk.injEq] at hs
      obtain ⟨h1, h2⟩ := hs
      subst h1; subst h2
      exact ⟨entry, List.mem_cons_self _ _, hq⟩
    · obtain ⟨e, he, ht⟩ := ih hs
      exact ⟨e, List.mem_cons_of_mem _ he, ht⟩

theorem evictOldest_sublist (env : Env) (cache : Cache) :
    (evictOldest env cache).Sublist cache := by
  unfold evictOldest
  split
  · split
    · split
      · exact mapDelete_sublist _ _
      · exact List.Sublist.refl _
    · exact List.Sublist.refl _
  · exact List.Sublist.refl _

theorem length_evictOldest_lt {env : Env} {cache : Cache} (hmax : 1 ≤ env.MAX_CACHE_SIZE)
    (hk : KeysNonEmpty cache) (hfull : (cache.length : Int) ≥ env.MAX_CACHE_SIZE) :
    (evictOldest env cache).length < cache.length := by
  have hne : cache ≠ [] := by
    intro h0; rw [h0] at hfull; simp at hfull; omega
  obtain ⟨k, e, hfo, hmem⟩ := findOldest_exists hne
  have hkne : k ≠ [] := hk _ hmem
  unfold evictOldest
  rw [if_pos hfull, hfo]
  simp only [hkne, ne_eq, not_false_eq_true, if_true]
  exact length_mapDelete_lt hmem

theorem keysNonEmpty_of_sublist {c c' : Cache} (hs : c'.Sublist c) (hk : KeysNonEmpty c) :
    KeysNonEmpty c' := fun p hp => hk p (hs.subset hp)

theorem keysNonEmpty_mapSet {cache : Cache} {key : Str} (value : Entry)
    (hk : KeysNonEmpty cache) (hkey : key ≠ []) : KeysNonEmpty (mapSet cache key value) := by
  intro p hp
  rcases mem_mapSet hp with h | h
  · rw [h]; exact hkey
  · exact hk p h

theorem cleanCache_fold_sublist (env : Env) (now : Int) (c0 : Cache) (l : Cache)
    (acc : Cache × List (Str × Entry)) (h : acc.1.Sublist c0) :
    (l.foldl
      (fun acc p =>
        if now - p.2.lastSeen > env.MESSAGE_CACHE_TIME then
          (mapDelete acc.1 p.1, acc.2 ++ [p])
        else acc) acc).1.Sublist c0 := by
  induction l generalizing acc with
  | nil => exact h
  | cons q rest ih =>
    simp only [List.foldl_cons]
    apply ih
    split
    · exact (mapDelete_sublist _ _).trans h
    · exact h

theorem cleanCache_sublist (env : Env) (now : Int) (cache : Cache) :
    (cleanCache env now cache).1.Sublist cache :=
  cleanCache_fold_sublist env now cache cache (cache, []) (List.Sublist.refl _)

theorem keysNonEmpty_insertNew {env : Env} {msg : Message} {cache : Cache} (now : Int)
    (hk : KeysNonEmpty cache) (ht : msg.messageText ≠ []) :
    KeysNonEmpty (insertNew env msg now cache) :=
  keysNonEmpty_mapSet _ (keysNonEmpty_of_sublist (evictOldest_sublist env cache) hk) ht

theorem length_insertNew_le {env : Env} (msg : Message) (now : Int) {cache : Cache}
    (hmax : 1 ≤ env.MAX_CACHE_SIZE) (hk : KeysNonEmpty cache)
    (hlen : (cache.length : Int) ≤ env.MAX_CACHE_SIZE) :
    ((insertNew env msg now cache).length : Int) ≤ env.MAX_CACHE_SIZE := by
  unfold insertNew
  have h1 := length_mapSet_le (evictOldest env cache) msg.messageText (newEntry msg now)
  by_cases hfull : (cache.length : Int) ≥ env.MAX_CACHE_SIZE
  · have h2 := length_evictOldest_lt hmax hk hfull
    omega
  · have h2 := (evictOldest_sublist env cache).length_le
    omega

theorem keysNonEmpty_ingest (env : Env) (msg : Message) (now : Int) {cache : Cache}
    (hk : KeysNonEmpty cache) : KeysNonEmpty (ingest env msg now cache).1 := by
  unfold ingest
  split
  · exact hk
  · rename_i ht
    simp only
    split
    · exact hk
    · split
      · rename_i matchKey isExact hs
        split
        · rename_i entry hg
          exact keysNonEmpty_mapSet _ hk (hk _ (mapGet_some_mem hg))
        · exact keysNonEmpty_insertNew now hk ht
      · exact keysNonEmpty_insertNew now hk ht

theorem length_ingest_le (env : Env) (msg : Message) (now : Int) {cache : Cache}
    (hmax : 1 ≤ env.MAX_CACHE_SIZE) (hk : KeysNonEmpty cache)
    (hlen : (cache.length : Int) ≤ env.MAX_CACHE_SIZE) :
    ((ingest env msg now cache).1.length : Int) ≤ env.MAX_CACHE_SIZE := by
  unfold ingest
  split
  · exact hlen
  · simp only
    split
    · exact hlen
    · split
      · split
        · rename_i entry hg
          rw [length_mapSet_of_mem _ (mapGet_some_mem hg)]
          exact hlen
        · exact length_insertNew_le msg now hmax hk hlen
      · exact length_insertNew_le msg now hmax hk hlen

theorem keysNonEmpty_step (env : Env) (call : Call) {cache : Cache}
    (hk : KeysNonEmpty cache) : KeysNonEmpty (step env cache call) := by
  cases call with
  | ingest msg now => exact keysNonEmpty_ingest env msg now hk
  | sweep now => exact keysNonEmpty_of_sublist (cleanCache_sublist env now cache) hk

theorem length_step_le (env : Env) (call : Call) {cache : Cache}
    (hmax : 1 ≤ env.MAX_CACHE_SIZE) (hk : KeysNonEmpty cache)
    (hlen : (cache.length : Int) ≤ env.MAX_CACHE_SIZE) :
    ((step env cache call).length : Int) ≤ env.MAX_CACHE_SIZE := by
  cases call with
  | ingest msg now => exact length_ingest_le env msg now hmax hk hlen
  | sweep now =>
    have := (cleanCache_sublist env now cache).length_le
    simp only [step]
    omega

theorem run_invariant (env : Env) (hmax : 1 ≤ env.MAX_CACHE_SIZE) (calls : List Call)
    (cache : Cache) (hk : KeysNonEmpty cache)
    (hlen : (cache.length : Int) ≤ env.MAX_CACHE_SIZE) :
    KeysNonEmpty (run env cache calls) ∧
      ((run env cache calls).length : Int) ≤ env.MAX_CACHE_SIZE := by
  induction calls generalizing cache with
  | nil => exact ⟨hk, hlen⟩
  | cons c rest ih =>
    simp only [run, List.foldl_cons]
    exact ih _ (keysNonEmpty_step env c hk) (length_step_le env c hmax hk hlen)

/-! ## The claims -/

/-- C1 (capacity bound). With `MAX_CACHE_SIZE` at least 1, start from the
empty cache and make any finite sequence of calls, each a message handled by
the callback or a firing of `cleanCache`: after every call of the sequence
(the first `k` calls, for every `k`) the cache holds at most `MAX_CACHE_SIZE`
entries. -/
theorem capacity_bound (env : Env) (hmax : 1 ≤ env.MAX_CACHE_SIZE) (calls : List Call)
    (k : Nat) : ((run env [] (calls.take k)).length : Int) ≤ env.MAX_CACHE_SIZE :=
  (run_invariant env hmax (calls.take k) [] (fun _ hp => by simp at hp)
    (by simp only [List.length_nil, Nat.cast_zero]; omega)).2

/-- Witness of `capacity_bound`: two slots, three messages and a sweep. -/
theorem capacity_bound_witness :
    (1 : Int) ≤ smallEnv.MAX_CACHE_SIZE ∧
      ((run smallEnv [] (sampleCalls.take 3)).length : Int) ≤ smallEnv.MAX_CACHE_SIZE :=
  ⟨by decide, capacity_bound smallEnv (by decide) sampleCalls 3⟩

/-! ## The same text again and again -/

theorem ingest_empty_cache (env : Env) (msg : Message) (now : Int)
    (ht : msg.messageText ≠ []) (hself : env.toLowerCase msg.author ≠ env.currentUser) :
    ingest env msg now [] = ([(msg.messageText, newEntry msg now)], Decision.inserted) := by
  simp [ingest, ht, hself, scan, insertNew, evictOldest, findOldest, mapSet]

theorem ingest_same_text (env : Env) (msg : Message) (now : Int) (e : Entry)
    (ht : msg.messageText ≠ []) (hself : env.toLowerCase msg.author ≠ env.currentUser)
    (he : e.originalText = msg.messageText) (hn : e.node ≠ msg.addedNode) :
    ingest env msg now [(msg.messageText, e)] =
      ([(msg.messageText, bump now e)],
        Decision.merged msg.messageText (e.count + 1) true) := by
  simp [ingest, ht, hself, scan, testEntry, hn, he, mapGet, mapSet]

theorem ingestAll_same_text (env : Env) (text : Str) (ht : text ≠ [])
    (msgs : List (Message × Int)) (e : Entry) (he : e.originalText = text)
    (hm : ∀ m ∈ msgs, m.1.messageText = text ∧
      env.toLowerCase m.1.author ≠ env.currentUser ∧ e.node ≠ m.1.addedNode) :
    (∃ e', (ingestAll env [(text, e)] msgs).1 = [(text, e')] ∧
        e'.count = e.count + msgs.length ∧ e'.originalText = text ∧ e'.node = e.node ∧
        e'.author = e.author) ∧
      (ingestAll env [(text, e)] msgs).2 =
        (List.range msgs.length).map (fun i => Decision.merged text (e.count + 1 + i) true) := by
  induction msgs generalizing e with
  | nil => exact ⟨⟨e, rfl, by simp, he, rfl, rfl⟩, by simp [ingestAll]⟩
  | cons m rest ih =>
    obtain ⟨msg, now⟩ := m
    obtain ⟨h1, h2, h3⟩ := hm (msg, now) (List.mem_cons_self _ _)
    simp only at h1 h2 h3
    have hstep := ingest_same_text env msg now e (by rw [h1]; exact ht) h2 (by rw [h1]; exact he) h3
    rw [h1] at hstep
    have hrest : ∀ m ∈ rest, m.1.messageText = text ∧
        env.toLowerCase m.1.author ≠ env.currentUser ∧ (bump now e).node ≠ m.1.addedNode :=
      fun m hmem => hm m (List.mem_cons_of_mem _ hmem)
    obtain ⟨⟨e', hc, hcount, htext, hnode, hauthor⟩, hd⟩ := ih (bump now e) he hrest
    simp only [ingestAll, hstep]
    refine ⟨⟨e', hc, ?_, htext, hnode, hauthor⟩, ?_⟩
    · rw [hcount]; simp only [bump, List.length_cons]; omega
    · rw [hd, List.length_cons, List.range_succ_eq_map]
      simp only [List.map_cons, List.map_map, bump, Nat.add_zero]
      congr 1
      apply List.map_congr_left
      intro i _
      simp only [Function.comp, Nat.succ_eq_add_one]
      congr 1
      omega

/-- C2 (exact-match idempotence). Start from the empty cache and handle, with
no firing of `cleanCache` in between, `N >= 1` messages that all carry the same
non-empty text, from authors other than the current user and on pairwise
different nodes. Then the cache holds exactly one entry; its key and
`originalText` are the text, its node and author are those of the first
message and its count is `N`. The first message is inserted and the `i`-th
further one is merged, as an exact match, into that entry with new count
`i + 1`. -/
theorem exact_match_idempotence (env : Env) (text : Str) (ht : text ≠ [])
    (first : Message × Int) (others : List (Message × Int))
    (htext : ∀ m ∈ first :: others, m.1.messageText = text)
    (hself : ∀ m ∈ first :: others, env.toLowerCase m.1.author ≠ env.currentUser)
    (hnodes : ((first :: others).map (fun m => m.1.addedNode)).Nodup) :
    (∃ e, (ingestAll env [] (first :: others)).1 = [(text, e)] ∧
        e.count = (first :: others).length ∧ e.originalText = text ∧
        e.node = first.1.addedNode ∧ e.author = first.1.author) ∧
      (ingestAll env [] (first :: others)).2 =
        Decision.inserted ::
          (List.range others.length).map (fun i => Decision.merged text (i + 2) true) := by
  obtain ⟨msg, now⟩ := first
  have h1 : msg.messageText = text := htext (msg, now) (List.mem_cons_self _ _)
  have h2 := hself (msg, now) (List.mem_cons_self _ _)
  simp only at h2
  have hstep := ingest_empty_cache env msg now (by rw [h1]; exact ht) h2
  rw [h1] at hstep
  simp only [List.map_cons, List.nodup_cons, List.mem_map, not_exists, not_and] at hnodes
  have hrest : ∀ m ∈ others, m.1.messageText = text ∧
      env.toLowerCase m.1.author ≠ env.currentUser ∧
      (newEntry msg now).node ≠ m.1.addedNode := by
    intro m hmem
    refine ⟨htext m (List.mem_cons_of_mem _ hmem), hself m (List.mem_cons_of_mem _ hmem), ?_⟩
    intro heq
    exact hnodes.1 m hmem heq.symm
  obtain ⟨⟨e', hc, hcount, htxt, hnode, hauthor⟩, hd⟩ :=
    ingestAll_same_text env text ht others (newEntry msg now) (by simp [newEntry, h1]) hrest
  simp only [ingestAll, hstep]
  refine ⟨⟨e', hc, ?_, htxt, by rw [hnode]; rfl, by rw [hauthor]; rfl⟩, ?_⟩
  · rw [hcount]; simp only [newEntry, List.length_cons]; omega
  · rw [hd]
    congr 1
    apply List.map_congr_left
    intro i _
    simp only [newEntry]
    congr 1
    omega

/-- Witness of `exact_match_idempotence`: three times `hello`. -/
theorem exact_match_idempotence_witness :
    utf16 "hello" ≠ [] ∧
    (∀ m ∈ helloFirst :: helloOthers, m.1.messageText = utf16 "hello") ∧
    (∀ m ∈ helloFirst :: helloOthers,
      (defaultEnv (utf16 "me")).toLowerCase m.1.author ≠ (defaultEnv (utf16 "me")).currentUser) ∧
    ((helloFirst :: helloOthers).map (fun m => m.1.addedNode)).Nodup ∧
    ((∃ e, (ingestAll (defaultEnv (utf16 "me")) [] (helloFirst :: helloOthers)).1 =
          [(utf16 "hello", e)] ∧
        e.count = (helloFirst :: helloOthers).length ∧ e.originalText = utf16 "hello" ∧
        e.node = helloFirst.1.addedNode ∧ e.author = helloFirst.1.author) ∧
      (ingestAll (defaultEnv (utf16 "me")) [] (helloFirst :: helloOthers)).2 =
        Decision.inserted ::
          (List.range helloOthers.length).map
            (fun i => Decision.merged (utf16 "hello") (i + 2) true)) :=
  ⟨by decide, by decide, by decide, by decide,
    exact_match_idempotence (defaultEnv (utf16 "me")) (utf16 "hello") (by decide)
      helloFirst helloOthers (by decide) (by decide) (by decide)⟩

/-! ## The scan stops at the first entry that passes a test -/

theorem testEntry_eq (env : Env) (t : Str) (h : Handle) (e : Entry) :
    testEntry env t h e =
      if e.node = h then none
      else if t = normalise env e.originalText then some true
      else if repetitionTest t (normalise env e.originalText) ∨
          fuzzyTest env t (normalise env e.originalText) then some false
      else none := by
  unfold testEntry repetitionTest fuzzyTest
  simp only
  split
  · rfl
  · split
    · rfl
    · by_cases hr : (isRepetitive t && isRepetitive (normalise env e.originalText) &&
          decide (t.head? = (normalise env e.originalText).head?)) = true
      · simp [hr]
      · by_cases hl : (env.USE_LEVENSHTEIN && decide (t.length ≤ 100) &&
            decide ((normalise env e.originalText).length ≤ 100)) = true
        · by_cases hsim : similarity t (normalise env e.originalText) ≥
              env.LEVENSHTEIN_SIMILARITY_THRESHOLD
          · simp [hr, hl, hsim]
          · simp [hr, hl, hsim]
        · simp [hr, hl]

theorem testEntry_exact {env : Env} {t : Str} {h : Handle} {e : Entry}
    (hn : scanned h e) (he : normalise env e.originalText = t) :
    testEntry env t h e = some true := by
  rw [testEntry_eq, if_neg hn, if_pos he.symm]

theorem testEntry_similar {env : Env} {t : Str} {h : Handle} {e : Entry}
    (hn : scanned h e) (he : normalise env e.originalText ≠ t)
    (hm : repetitionTest t (normalise env e.originalText) = true ∨
      fuzzyTest env t (normalise env e.originalText) = true) :
    testEntry env t h e = some false := by
  rw [testEntry_eq, if_neg hn, if_neg (fun h' => he h'.symm), if_pos hm]

theorem testEntry_none {env : Env} {t : Str} {h : Handle} {e : Entry}
    (hm : scanned h e → normalise env e.originalText ≠ t ∧
      repetitionTest t (normalise env e.originalText) = false ∧
      fuzzyTest env t (normalise env e.originalText) = false) :
    testEntry env t h e = none := by
  rw [testEntry_eq]
  split
  · rfl
  · rename_i hn
    obtain ⟨h1, h2, h3⟩ := hm hn
    rw [if_neg (fun h' => h1 h'.symm), if_neg (by simp [h2, h3])]

theorem scan_append_of_none (env : Env) (t : Str) (h : Handle) (pre rest : Cache)
    (hpre : ∀ p ∈ pre, testEntry env t h p.2 = none) :
    scan env t h (pre ++ rest) = scan env t h rest := by
  induction pre with
  | nil => rfl
  | cons q pre ih =>
    obtain ⟨k, e⟩ := q
    have hq := hpre (k, e) (List.mem_cons_self _ _)
    simp only at hq
    simp only [List.cons_append, scan, hq]
    exact ih (fun p hp => hpre p (List.mem_cons_of_mem _ hp))

theorem scan_eq_none (env : Env) (t : Str) (h : Handle) (cache : Cache)
    (hall : ∀ p ∈ cache, testEntry env t h p.2 = none) : scan env t h cache = none := by
  have := scan_append_of_none env t h cache [] hall
  simpa [scan] using this

theorem scan_first (env : Env) (t : Str) (h : Handle) (pre post : Cache) (k : Str)
    (e : Entry) (ex : Bool) (hpre : ∀ p ∈ pre, testEntry env t h p.2 = none)
    (he : testEntry env t h e = some ex) :
    scan env t h (pre ++ (k, e) :: post) = some (k, ex) := by
  rw [scan_append_of_none env t h pre _ hpre]
  simp [scan, he]

theorem mapGet_middle {pre post : Cache} {k : Str} {e : Entry}
    (hd : KeysDistinct (pre ++ (k, e) :: post)) : mapGet (pre ++ (k, e) :: post) k = some e := by
  induction pre with
  | nil => simp [mapGet]
  | cons q pre ih =>
    obtain ⟨k', e'⟩ := q
    have hne : k' ≠ k := by
      intro heq
      simp only [KeysDistinct, List.cons_append, List.map_cons, List.nodup_cons, List.map_append,
        List.mem_append, List.mem_cons, List.mem_map] at hd
      exact hd.1 (Or.inr (Or.inl heq))
    have hd' : KeysDistinct (pre ++ (k, e) :: post) := by
      simp only [KeysDistinct, List.cons_append, List.map_cons, List.nodup_cons] at hd
      exact hd.2
    have := ih hd'
    simp only [mapGet, List.cons_append, List.find?_cons, hne, decide_False] at this ⊢
    exact this

theorem mapSet_middle {pre post : Cache} {k : Str} {e : Entry} (value : Entry)
    (hd : KeysDistinct (pre ++ (k, e) :: post)) :
    mapSet (pre ++ (k, e) :: post) k value = pre ++ (k, value) :: post := by
  induction pre with
  | nil => simp [mapSet]
  | cons q pre ih =>
    obtain ⟨k', e'⟩ := q
    have hne : k' ≠ k := by
      intro heq
      simp only [KeysDistinct, List.cons_append, List.map_cons, List.nodup_cons, List.map_append,
        List.mem_append, List.mem_cons, List.mem_map] at hd
      exact hd.1 (Or.inr (Or.inl heq))
    have hd' : KeysDistinct (pre ++ (k, e) :: post) := by
      simp only [KeysDistinct, List.cons_append, List.map_cons, List.nodup_cons] at hd
      exact hd.2
    simp only [List.cons_append, mapSet, hne, if_false]
    exact congrArg _ (ih hd')

/-- The callback on a message with text and not from the current user, when
the first entry to pass a test is `(k, e)`: that entry is bumped in place. -/
theorem ingest_first_match (env : Env) (msg : Message) (now : Int) (pre post : Cache)
    (k : Str) (e : Entry) (ex : Bool) (ht : msg.messageText ≠ [])
    (hself : env.toLowerCase msg.author ≠ env.currentUser)
    (hd : KeysDistinct (pre ++ (k, e) :: post))
    (hpre : ∀ p ∈ pre, testEntry env (normalise env msg.messageText) msg.addedNode p.2 = none)
    (he : testEntry env (normalise env msg.messageText) msg.addedNode e = some ex) :
    ingest env msg now (pre ++ (k, e) :: post) =
      (pre ++ (k, bump now e) :: post, Decision.merged k (e.count + 1) ex) := by
  unfold ingest
  rw [if_neg ht]
  simp only
  rw [if_neg hself, scan_first env _ _ pre post k e ex hpre he]
  simp only [mapGet_middle hd, mapSet_middle _ hd]

/-- The callback on a message with text and not from the current user, when
no entry passes a test: the `else` branch of line 188 runs. -/
theorem ingest_no_match (env : Env) (msg : Message) (now : Int) (cache : Cache)
    (ht : msg.messageText ≠ []) (hself : env.toLowerCase msg.author ≠ env.currentUser)
    (hall : ∀ p ∈ cache,
      testEntry env (normalise env msg.messageText) msg.addedNode p.2 = none) :
    ingest env msg now cache = (insertNew env msg now cache, Decision.inserted) := by
  unfold ingest
  rw [if_neg ht]
  simp only
  rw [if_neg hself, scan_eq_none env _ _ cache hall]

/-- C3 as stated fails: the cache holds `????` and then `???`, and `???`
arrives on a new node from another author. The second entry is scanned and is
exactly equal to the incoming text, yet the callback stops at the first entry,
which passes the repetition test, and merges there as a non-exact match. -/
theorem exact_precedence_counterexample :
    (defaultEnv (utf16 "me")).toLowerCase (utf16 "cy") ≠ (defaultEnv (utf16 "me")).currentUser ∧
    (∃ p ∈ runsCache, scanned 3 p.2 ∧
      normalise (defaultEnv (utf16 "me")) p.2.originalText =
        normalise (defaultEnv (utf16 "me")) (utf16 "???")) ∧
    (ingest (defaultEnv (utf16 "me")) ⟨utf16 "cy", utf16 "???", 3⟩ 3000 runsCache).2 =
      Decision.merged (utf16 "????") 2 false := by
  decide

/-- C3, amended. For a message with text that is not from the current user,
let `(k, e)` be an entry the scan looks at that passes one of the three tests
(exact equality, repetition, fuzzy), no entry before it that the scan looks at
passing any of them. Then the message is merged into `(k, e)`, which is bumped
in place, and the match counts as exact precisely when the normalised text of
`e` equals the normalised incoming text. So an exactly equal entry is the
target, as an exact match, when no entry scanned before it passes the
repetition or the fuzzy test. -/
theorem first_match_wins (env : Env) (msg : Message) (now : Int) (pre post : Cache)
    (k : Str) (e : Entry) (ht : msg.messageText ≠ [])
    (hself : env.toLowerCase msg.author ≠ env.currentUser)
    (hd : KeysDistinct (pre ++ (k, e) :: post))
    (hpre : ∀ p ∈ pre, scanned msg.addedNode p.2 →
      normalise env p.2.originalText ≠ normalise env msg.messageText ∧
      repetitionTest (normalise env msg.messageText) (normalise env p.2.originalText) = false ∧
      fuzzyTest env (normalise env msg.messageText) (normalise env p.2.originalText) = false)
    (hscan : scanned msg.addedNode e)
    (hpass : normalise env e.originalText = normalise env msg.messageText ∨
      repetitionTest (normalise env msg.messageText) (normalise env e.originalText) = true ∨
      fuzzyTest env (normalise env msg.messageText) (normalise env e.originalText) = true) :
    ingest env msg now (pre ++ (k, e) :: post) =
      (pre ++ (k, bump now e) :: post,
        Decision.merged k (e.count + 1)
          (decide (normalise env e.originalText = normalise env msg.messageText))) := by
  apply ingest_first_match env msg now pre post k e _ ht hself hd
  · exact fun p hp => testEntry_none (hpre p hp)
  · by_cases hex : normalise env e.originalText = normalise env msg.messageText
    · simp only [hex, decide_True]
      exact testEntry_exact hscan hex
    · simp only [hex, decide_False]
      rcases hpass with h | h
      · exact absurd h hex
      · exact testEntry_similar hscan hex h

theorem similarity_of_pos (a b : Str) (h : 0 < max a.length b.length) :
    similarity a b = 1 - (levenshtein a b : ℚ) / ((max a.length b.length : ℕ) : ℚ) := by
  unfold similarity
  simp only
  rw [if_neg (by omega)]

theorem le_one_sub_div_iff (n d l m : ℕ) (hd : 0 < d) (hm : 0 < m) :
    (n : ℚ) / (d : ℚ) ≤ 1 - (l : ℚ) / (m : ℚ) ↔ n * m + d * l ≤ d * m := by
  have hd' : (0 : ℚ) < (d : ℚ) := by exact_mod_cast hd
  have hm' : (0 : ℚ) < (m : ℚ) := by exact_mod_cast hm
  rw [le_sub_iff_add_le, div_add_div _ _ hd'.ne' hm'.ne', div_le_one (mul_pos hd' hm')]
  exact_mod_cast Iff.rfl

theorem le_similarity_iff (a b : Str) (n d : ℕ) (hd : 0 < d)
    (hpos : 0 < max a.length b.length) :
    (n : ℚ) / (d : ℚ) ≤ similarity a b ↔
      n * max a.length b.length + d * levenshtein a b ≤ d * max a.length b.length := by
  rw [similarity_of_pos a b hpos]
  exact le_one_sub_div_iff n d _ _ hd hpos

theorem fuzzyTest_eq_decide (env : Env) (a b : Str) (n d : ℕ) (hd : 0 < d)
    (hthr : env.LEVENSHTEIN_SIMILARITY_THRESHOLD = (n : ℚ) / (d : ℚ))
    (hpos : 0 < max a.length b.length) :
    fuzzyTest env a b =
      (env.USE_LEVENSHTEIN && decide (a.length ≤ 100) && decide (b.length ≤ 100) &&
        decide (n * max a.length b.length + d * levenshtein a b ≤ d * max a.length b.length)) := by
  unfold fuzzyTest
  congr 1
  have := le_similarity_iff a b n d hd hpos
  rw [← hthr] at this
  exact decide_eq_decide.2 this

theorem defaultEnv_threshold (user : Str) :
    (defaultEnv user).LEVENSHTEIN_SIMILARITY_THRESHOLD = ((9 : ℕ) : ℚ) / ((10 : ℕ) : ℚ) := by
  simp [defaultEnv]

/-- Witness of `first_match_wins`: `Hello` arrives while the cache holds
`good game` and then `hello`; the first entry passes no test and the second is
exactly equal after lower-casing. -/
theorem first_match_wins_witness :
    ingest (defaultEnv (utf16 "me")) ⟨utf16 "cy", utf16 "Hello", 3⟩ 3000 greetCache =
      ([(utf16 "good game", ⟨1, 1000, 1, utf16 "good game", utf16 "ann"⟩),
        (utf16 "hello", ⟨5, 3000, 2, utf16 "hello", utf16 "bob"⟩)],
        Decision.merged (utf16 "hello") 5 true) :=
  first_match_wins (defaultEnv (utf16 "me")) ⟨utf16 "cy", utf16 "Hello", 3⟩ 3000
    [(utf16 "good game", ⟨1, 1000, 1, utf16 "good game", utf16 "ann"⟩)] []
    (utf16 "hello") ⟨4, 2000, 2, utf16 "hello", utf16 "bob"⟩ (by decide) (by decide)
    (by decide)
    (by
      intro p hp _
      simp only [List.mem_singleton] at hp
      subst hp
      refine ⟨by decide, by decide, ?_⟩
      rw [fuzzyTest_eq_decide _ _ _ 9 10 (by decide) (defaultEnv_threshold _) (by decide)]
      decide)
    (by decide) (Or.inl (by decide))

/-- C4 (first fit among non-exact matches). For a message with text that is
not from the current user, when no entry the scan looks at is exactly equal to
it after normalisation: the message is merged, as a non-exact match, into the
first entry in map order that the scan looks at and that passes the repetition
test or the fuzzy test, whatever the similarity of later entries, and that
entry is bumped in place; when no entry passes either test the message is
inserted. -/
theorem first_fit (env : Env) (msg : Message) (now : Int) (cache : Cache)
    (ht : msg.messageText ≠ []) (hself : env.toLowerCase msg.author ≠ env.currentUser)
    (hd : KeysDistinct cache)
    (hno : ∀ p ∈ cache, scanned msg.addedNode p.2 →
      normalise env p.2.originalText ≠ normalise env msg.messageText) :
    ingest env msg now cache =
      match cache.find? (fun p => decide (scanned msg.addedNode p.2) &&
          (repetitionTest (normalise env msg.messageText) (normalise env p.2.originalText) ||
            fuzzyTest env (normalise env msg.messageText) (normalise env p.2.originalText))) with
      | some p => (mapSet cache p.1 (bump now p.2), Decision.merged p.1 (p.2.count + 1) false)
      | none => (insertNew env msg now cache, Decision.inserted) := by
  rcases hf : cache.find? (fun p => decide (scanned msg.addedNode p.2) &&
      (repetitionTest (normalise env msg.messageText) (normalise env p.2.originalText) ||
        fuzzyTest env (normalise env msg.messageText) (normalise env p.2.originalText)))
    with _ | p
  · rw [hf]
    apply ingest_no_match env msg now cache ht hself
    intro p hp
    have := List.find?_eq_none.1 hf p hp
    apply testEntry_none
    intro hs
    refine ⟨hno p hp hs, ?_⟩
    simp only [Bool.and_eq_true, decide_eq_true_eq, Bool.or_eq_true, not_and, not_or] at this
    have h2 := this hs
    exact ⟨by simpa using h2.1, by simpa using h2.2⟩
  · rw [hf]
    obtain ⟨hp, pre, post, hsplit, hpre⟩ := List.find?_eq_some.1 hf
    obtain ⟨k, e⟩ := p
    simp only [Bool.and_eq_true, decide_eq_true_eq, Bool.or_eq_true] at hp
    subst hsplit
    dsimp only
    have hmem : (k, e) ∈ pre ++ (k, e) :: post := by simp
    rw [mapSet_middle _ hd]
    apply ingest_first_match env msg now pre post k e false ht hself hd
    · intro q hq
      have hq' := hpre q hq
      apply testEntry_none
      intro hs
      refine ⟨hno q (by simp [hq]) hs, ?_⟩
      simp only [Bool.not_eq_true', Bool.and_eq_false_imp, decide_eq_true_eq,
        Bool.or_eq_false_iff] at hq'
      exact hq' hs
    · exact testEntry_similar hp.1 (hno _ hmem hp.1) hp.2

set_option maxRecDepth 10000 in
/-- Witness of `first_fit`: `hello world` arrives while the cache holds
`hello worlt` (similarity 10/11) and then `hello world!` (similarity 11/12):
the first of the two is the target. -/
theorem first_fit_witness :
    ingest (defaultEnv (utf16 "me")) ⟨utf16 "cy", utf16 "hello world", 3⟩ 3000 worldCache =
      ([(utf16 "hello worlt", ⟨2, 3000, 1, utf16 "hello worlt", utf16 "ann"⟩),
        (utf16 "hello world!", ⟨1, 2000, 2, utf16 "hello world!", utf16 "bob"⟩)],
        Decision.merged (utf16 "hello worlt") 2 false) := by
  rw [first_fit (defaultEnv (utf16 "me")) ⟨utf16 "cy", utf16 "hello world", 3⟩ 3000 worldCache
    (by decide) (by decide) (by decide) (by decide)]
  have h1 : fuzzyTest (defaultEnv (utf16 "me"))
      (normalise (defaultEnv (utf16 "me")) (utf16 "hello world"))
      (normalise (defaultEnv (utf16 "me")) (utf16 "hello worlt")) = true := by
    rw [fuzzyTest_eq_decide _ _ _ 9 10 (by decide) (defaultEnv_threshold _) (by decide)]
    decide
  rw [worldCache, List.find?_cons_of_pos]
  · rfl
  · simp only [Bool.and_eq_true, decide_eq_true_eq, Bool.or_eq_true]
    exact ⟨by decide, Or.inr h1⟩

/-! ## Deleting and sweeping in a `Map` with distinct keys -/

theorem keysDistinct_of_sublist {c c' : Cache} (hs : c'.Sublist c) (hd : KeysDistinct c) :
    KeysDistinct c' :=
  List.Nodup.sublist (hs.map Prod.fst) hd

theorem key_ne_of_keysDistinct {pre post : Cache} {k : Str} {e : Entry}
    (hd : KeysDistinct (pre ++ (k, e) :: post)) :
    (∀ p ∈ pre, p.1 ≠ k) ∧ (∀ p ∈ post, p.1 ≠ k) := by
  unfold KeysDistinct at hd
  rw [List.map_append, List.map_cons, List.nodup_append] at hd
  obtain ⟨_, h2, h3⟩ := hd
  constructor
  · intro p hp heq
    exact h3 (List.mem_map_of_mem Prod.fst hp) (by rw [heq]; exact List.mem_cons_self _ _)
  · intro p hp heq
    rw [List.nodup_cons] at h2
    have hm : p.1 ∈ post.map Prod.fst := List.mem_map_of_mem Prod.fst hp
    rw [heq] at hm
    exact h2.1 hm

theorem mapDelete_middle {pre post : Cache} {k : Str} {e : Entry}
    (hd : KeysDistinct (pre ++ (k, e) :: post)) :
    mapDelete (pre ++ (k, e) :: post) k = pre ++ post := by
  obtain ⟨h1, h2⟩ := key_ne_of_keysDistinct hd
  unfold mapDelete
  rw [List.filter_append, List.filter_cons_of_neg (by simp)]
  rw [List.filter_eq_self.2 (fun p hp => by simpa using h1 p hp),
    List.filter_eq_self.2 (fun p hp => by simpa using h2 p hp)]

theorem cleanCache_fold (env : Env) (now : Int) (todo kept removed : Cache)
    (hd : KeysDistinct (kept ++ todo)) :
    todo.foldl
        (fun acc p =>
          if now - p.2.lastSeen > env.MESSAGE_CACHE_TIME then
            (mapDelete acc.1 p.1, acc.2 ++ [p])
          else acc)
        (kept ++ todo, removed) =
      (kept ++ todo.filter (fun p => decide (now - p.2.lastSeen ≤ env.MESSAGE_CACHE_TIME)),
        removed ++ todo.filter (fun p => decide (now - p.2.lastSeen > env.MESSAGE_CACHE_TIME))) := by
  induction todo generalizing kept removed with
  | nil => simp
  | cons q rest ih =>
    obtain ⟨k, e⟩ := q
    simp only [List.foldl_cons]
    by_cases hexp : now - e.lastSeen > env.MESSAGE_CACHE_TIME
    · rw [if_pos hexp, mapDelete_middle hd]
      have hd' : KeysDistinct (kept ++ rest) :=
        keysDistinct_of_sublist
          (List.Sublist.append_left (List.sublist_cons_self _ _) kept) hd
      rw [ih kept (removed ++ [(k, e)]) hd']
      rw [List.filter_cons_of_neg (by simp only [decide_eq_true_eq]; omega),
        List.filter_cons_of_pos (by simp only [decide_eq_true_eq]; omega)]
      simp
    · rw [if_neg hexp]
      have hd' : KeysDistinct ((kept ++ [(k, e)]) ++ rest) := by simpa using hd
      have := ih (kept ++ [(k, e)]) removed hd'
      simp only [List.append_assoc, List.singleton_append] at this
      rw [this]
      rw [List.filter_cons_of_pos (by simp only [decide_eq_true_eq]; omega),
        List.filter_cons_of_neg (by simp only [decide_eq_true_eq]; omega)]

/-- C6 (the sweep). For a cache with distinct keys and any time `now`,
`cleanCache` leaves exactly the entries with `now - lastSeen <= MESSAGE_CACHE_TIME`,
unchanged and in their order, and deletes exactly those with
`now - lastSeen > MESSAGE_CACHE_TIME`; an entry whose age equals
`MESSAGE_CACHE_TIME` stays. -/
theorem ttl_sweep (env : Env) (now : Int) (cache : Cache) (hd : KeysDistinct cache) :
    cleanCache env now cache =
      (cache.filter (fun p => decide (now - p.2.lastSeen ≤ env.MESSAGE_CACHE_TIME)),
        cache.filter (fun p => decide (now - p.2.lastSeen > env.MESSAGE_CACHE_TIME))) := by
  have := cleanCache_fold env now cache [] [] (by simpa using hd)
  simpa [cleanCache] using this

/-- Witness of `ttl_sweep`: at time 61001 with a lifetime of 60000, the entry
last seen at 1000 goes, the one last seen at 1001 (age exactly 60000) and the
one last seen at 5000 stay. -/
theorem ttl_sweep_witness :
    KeysDistinct agedCache ∧
    cleanCache (defaultEnv (utf16 "me")) 61001 agedCache =
      ([(utf16 "good game", ⟨1, 1001, 2, utf16 "good game", utf16 "bob"⟩),
        (utf16 "???", ⟨3, 5000, 3, utf16 "???", utf16 "cy"⟩)],
        [(utf16 "hello", ⟨2, 1000, 1, utf16 "hello", utf16 "ann"⟩)]) :=
  ⟨by decide, ttl_sweep (defaultEnv (utf16 "me")) 61001 agedCache (by decide)⟩

/-! ## Which entry the capacity check removes -/

theorem findOldest_spec (rest : Cache) (k0 : Str) (t0 : Int) :
    (findOldest rest (some k0) (some t0) = some k0 ∧ ∀ p ∈ rest, t0 ≤ p.2.lastSeen) ∨
      ∃ pre k e post, rest = pre ++ (k, e) :: post ∧
        findOldest rest (some k0) (some t0) = some k ∧ e.lastSeen < t0 ∧
        (∀ p ∈ pre, e.lastSeen < p.2.lastSeen) ∧ (∀ p ∈ post, e.lastSeen ≤ p.2.lastSeen) := by
  induction rest generalizing k0 t0 with
  | nil => left; exact ⟨rfl, fun p hp => by simp at hp⟩
  | cons q r ih =>
    obtain ⟨key, data⟩ := q
    by_cases hlt : data.lastSeen < t0
    · have hstep : findOldest ((key, data) :: r) (some k0) (some t0) =
          findOldest r (some key) (some data.lastSeen) := by
        simp [findOldest, hlt]
      right
      rcases ih key data.lastSeen with ⟨h1, h2⟩ | ⟨pre, k, e, post, h1, h2, h3, h4, h5⟩
      · exact ⟨[], key, data, r, rfl, by rw [hstep, h1], hlt, fun p hp => by simp at hp, h2⟩
      · refine ⟨(key, data) :: pre, k, e, post, by rw [h1]; rfl, by rw [hstep, h2], by omega,
          ?_, h5⟩
        intro p hp
        rcases List.mem_cons.1 hp with hp | hp
        · rw [hp]; exact h3
        · exact h4 p hp
    · have hstep : findOldest ((key, data) :: r) (some k0) (some t0) =
          findOldest r (some k0) (some t0) := by
        simp [findOldest, hlt]
      rcases ih k0 t0 with ⟨h1, h2⟩ | ⟨pre, k, e, post, h1, h2, h3, h4, h5⟩
      · left
        refine ⟨by rw [hstep, h1], ?_⟩
        intro p hp
        rcases List.mem_cons.1 hp with hp | hp
        · rw [hp]; simp only; omega
        · exact h2 p hp
      · right
        refine ⟨(key, data) :: pre, k, e, post, by rw [h1]; rfl, by rw [hstep, h2], h3, ?_, h5⟩
        intro p hp
        rcases List.mem_cons.1 hp with hp | hp
        · rw [hp]; simp only; omega
        · exact h4 p hp

theorem findOldest_first_minimum {cache : Cache} (hne : cache ≠ []) :
    ∃ pre k e post, cache = pre ++ (k, e) :: post ∧ findOldest cache none none = some k ∧
      (∀ p ∈ pre, e.lastSeen < p.2.lastSeen) ∧ (∀ p ∈ post, e.lastSeen ≤ p.2.lastSeen) := by
  cases cache with
  | nil => exact absurd rfl hne
  | cons q r =>
    obtain ⟨key, data⟩ := q
    rw [findOldest_cons_none]
    rcases findOldest_spec r key data.lastSeen with ⟨h1, h2⟩ | ⟨pre, k, e, post, h1, h2, h3, h4, h5⟩
    · exact ⟨[], key, data, r, rfl, h1, fun p hp => by simp at hp, h2⟩
    · refine ⟨(key, data) :: pre, k, e, post, by rw [h1]; rfl, h2, ?_, h5⟩
      intro p hp
      rcases List.mem_cons.1 hp with hp | hp
      · rw [hp]; exact h3
      · exact h4 p hp

theorem ingest_inserted {env : Env} {msg : Message} {now : Int} {cache : Cache}
    (h : (ingest env msg now cache).2 = Decision.inserted) :
    (ingest env msg now cache).1 = insertNew env msg now cache := by
  unfold ingest at h ⊢
  split
  · rename_i ht; rw [if_pos ht] at h; simp at h
  · rename_i ht
    rw [if_neg ht] at h
    simp only at h ⊢
    split
    · rename_i hs; rw [if_pos hs] at h; simp at h
    · rename_i hs
      rw [if_neg hs] at h
      split
      · rename_i matchKey isExact hsc
        rw [hsc] at h
        simp only at h
        split
        · rename_i entry hg
          rw [hg] at h
          simp at h
        · rfl
      · rfl

/-- C5 (eviction of the least recently seen entry). Let the cache have
distinct, non-empty keys and hold at least `MAX_CACHE_SIZE >= 1` entries, and
let the callback find no match for a message, so that it inserts. Then the
cache splits as `pre ++ (k, e) :: post` where every entry of `pre` has a
`lastSeen` above that of `e` and every entry of `post` one not below it: `e`
is the first entry with the least `lastSeen`. The capacity check removes
exactly `(k, e)` and keeps `pre ++ post` as it was, and the new cache is
`cache.set` of the incoming text on `pre ++ post`. -/
theorem lru_eviction (env : Env) (msg : Message) (now : Int) (cache : Cache)
    (hmax : 1 ≤ env.MAX_CACHE_SIZE) (hfull : env.MAX_CACHE_SIZE ≤ (cache.length : Int))
    (hk : KeysNonEmpty cache) (hd : KeysDistinct cache)
    (hins : (ingest env msg now cache).2 = Decision.inserted) :
    ∃ pre k e post, cache = pre ++ (k, e) :: post ∧
      (∀ p ∈ pre, e.lastSeen < p.2.lastSeen) ∧ (∀ p ∈ post, e.lastSeen ≤ p.2.lastSeen) ∧
      evictOldest env cache = pre ++ post ∧
      (ingest env msg now cache).1 = mapSet (pre ++ post) msg.messageText (newEntry msg now) := by
  have hne : cache ≠ [] := by
    intro h0; rw [h0] at hfull; simp at hfull; omega
  obtain ⟨pre, k, e, post, hsplit, hfo, h1, h2⟩ := findOldest_first_minimum hne
  have hkne : k ≠ [] := hk (k, e) (by rw [hsplit]; simp)
  have hev : evictOldest env cache = pre ++ post := by
    unfold evictOldest
    rw [if_pos hfull, hfo]
    simp only [hkne, ne_eq, not_false_eq_true, if_true]
    subst hsplit
    exact mapDelete_middle hd
  refine ⟨pre, k, e, post, hsplit, h1, h2, hev, ?_⟩
  rw [ingest_inserted hins, insertNew, hev]

/-- Witness of `lru_eviction`: with two slots, `hello` was stored first and
seen again at 3000, `good game` was stored second at 2000; a third text
arrives and `good game` is the one to go. -/
theorem lru_eviction_witness :
    (1 : Int) ≤ plainEnv.MAX_CACHE_SIZE ∧
    plainEnv.MAX_CACHE_SIZE ≤ (refreshedCache.length : Int) ∧
    (ingest plainEnv ⟨utf16 "cy", utf16 "nice", 4⟩ 4000 refreshedCache).2 = Decision.inserted ∧
    (ingest plainEnv ⟨utf16 "cy", utf16 "nice", 4⟩ 4000 refreshedCache).1 =
      [(utf16 "hello", ⟨2, 3000, 1, utf16 "hello", utf16 "ann"⟩),
       (utf16 "nice", ⟨1, 4000, 4, utf16 "nice", utf16 "cy"⟩)] ∧
    ∃ pre k e post, refreshedCache = pre ++ (k, e) :: post ∧
      (∀ p ∈ pre, e.lastSeen < p.2.lastSeen) ∧ (∀ p ∈ post, e.lastSeen ≤ p.2.lastSeen) ∧
      evictOldest plainEnv refreshedCache = pre ++ post ∧
      (ingest plainEnv ⟨utf16 "cy", utf16 "nice", 4⟩ 4000 refreshedCache).1 =
        mapSet (pre ++ post) (utf16 "nice") (newEntry ⟨utf16 "cy", utf16 "nice", 4⟩ 4000) :=
  ⟨by decide, by decide, by decide, by decide,
    lru_eviction plainEnv ⟨utf16 "cy", utf16 "nice", 4⟩ 4000 refreshedCache (by decide)
      (by decide) (by decide) (by decide) (by decide)⟩

/-! ## Reachable caches have distinct, non-empty keys -/

theorem keys_mapSet (cache : Cache) (key : Str) (value : Entry) :
    (mapSet cache key value).map Prod.fst =
      if key ∈ cache.map Prod.fst then cache.map Prod.fst else cache.map Prod.fst ++ [key] := by
  induction cache with
  | nil => simp [mapSet]
  | cons q rest ih =>
    obtain ⟨k, e⟩ := q
    unfold mapSet
    by_cases hk : k = key
    · simp [hk]
    · have hk' : ¬ key = k := fun h => hk h.symm
      rw [if_neg hk]
      simp only [List.map_cons, List.mem_cons, hk', false_or, ih]
      split <;> simp

theorem keysDistinct_mapSet {cache : Cache} (key : Str) (value : Entry)
    (hd : KeysDistinct cache) : KeysDistinct (mapSet cache key value) := by
  unfold KeysDistinct at hd ⊢
  rw [keys_mapSet]
  split
  · exact hd
  · rename_i hnot
    rw [List.nodup_append]
    refine ⟨hd, List.nodup_singleton _, ?_⟩
    intro a ha hb
    simp only [List.mem_singleton] at hb
    exact hnot (hb ▸ ha)

theorem keysDistinct_ingest (env : Env) (msg : Message) (now : Int) {cache : Cache}
    (hd : KeysDistinct cache) : KeysDistinct (ingest env msg now cache).1 := by
  unfold ingest
  split
  · exact hd
  · simp only
    split
    · exact hd
    · split
      · split
        · exact keysDistinct_mapSet _ _ hd
        · exact keysDistinct_mapSet _ _
            (keysDistinct_of_sublist (evictOldest_sublist env cache) hd)
      · exact keysDistinct_mapSet _ _
          (keysDistinct_of_sublist (evictOldest_sublist env cache) hd)

theorem keysDistinct_step (env : Env) (call : Call) {cache : Cache}
    (hd : KeysDistinct cache) : KeysDistinct (step env cache call) := by
  cases call with
  | ingest msg now => exact keysDistinct_ingest env msg now hd
  | sweep now => exact keysDistinct_of_sublist (cleanCache_sublist env now cache) hd

/-- Every cache reached from the empty one has distinct, non-empty keys. -/
theorem run_keys (env : Env) (calls : List Call) (cache : Cache)
    (hk : KeysNonEmpty cache) (hd : KeysDistinct cache) :
    KeysNonEmpty (run env cache calls) ∧ KeysDistinct (run env cache calls) := by
  induction calls generalizing cache with
  | nil => exact ⟨hk, hd⟩
  | cons c rest ih =>
    simp only [run, List.foldl_cons]
    exact ih _ (keysNonEmpty_step env c hk) (keysDistinct_step env c hd)

theorem run_keys_empty (env : Env) (calls : List Call) :
    KeysNonEmpty (run env [] calls) ∧ KeysDistinct (run env [] calls) :=
  run_keys env calls [] (fun _ hp => by simp at hp) (by simp [KeysDistinct])

/-! ## Edit distance of nearly equal strings -/

theorem editDistance_self (a : Str) : editDistance a a = 0 := by
  induction a with
  | nil => rfl
  | cons x xs ih =>
    have := editDistance_cons_cons_le x x xs xs
    simp only [if_true] at this
    omega

theorem eq_of_editDistance_eq_zero {a b : Str} (h : editDistance a b = 0) : a = b := by
  induction a generalizing b with
  | nil =>
    simp only [editDistance] at h
    exact (List.length_eq_zero.1 h).symm
  | cons x xs ih =>
    cases b with
    | nil => rw [editDistance_nil_right] at h; simp at h
    | cons y ys =>
      rw [editDistance_cons_cons] at h
      have h3 : editDistance xs ys + (if x = y then 0 else 1) = 0 := by omega
      have hxy : x = y := by
        by_contra hne
        rw [if_neg hne] at h3
        omega
      rw [if_pos hxy] at h3
      have hrec : xs = ys := ih (by omega)
      rw [hxy, hrec]

theorem editDistance_append_left_le (p u v : Str) :
    editDistance (p ++ u) (p ++ v) ≤ editDistance u v := by
  induction p with
  | nil => exact Nat.le_refl _
  | cons x xs ih =>
    have := editDistance_cons_cons_le x x (xs ++ u) (xs ++ v)
    simp only [if_true] at this
    simp only [List.cons_append]
    omega

/-- Two strings that differ by one substitution are at distance 1. -/
theorem levenshtein_one_substitution (x y : Str) (u v : CodeUnit) (huv : u ≠ v) :
    levenshtein (x ++ u :: y) (x ++ v :: y) = 1 := by
  rw [levenshtein_eq_editDistance]
  have h1 := editDistance_append_left_le x (u :: y) (v :: y)
  have h2 := editDistance_cons_cons_le u v y y
  rw [if_neg huv, editDistance_self] at h2
  have h3 : editDistance (x ++ u :: y) (x ++ v :: y) ≠ 0 := by
    intro h0
    have := eq_of_editDistance_eq_zero h0
    simp only [List.append_cancel_left_eq, List.cons.injEq, and_true] at this
    exact huv this
  omega

theorem fuzzyTest_iff (env : Env) (a b : Str) :
    fuzzyTest env a b = true ↔
      env.USE_LEVENSHTEIN = true ∧ a.length ≤ 100 ∧ b.length ≤ 100 ∧
        env.LEVENSHTEIN_SIMILARITY_THRESHOLD ≤ similarity a b := by
  simp [fuzzyTest, and_assoc]

/-- The fuzzy tier of `testEntry`, whose arithmetic is exact. Let the fuzzy
test be switched on, and let `t` be the normalised incoming text and `c` the
normalised text of an entry the scan looks at, both of at most 100 code units,
different, and not passing the repetition test. The entry matches (as a
non-exact match) if and only if
`1 - levenshtein t c / max (length t) (length c)` is at least the threshold,
and the scan moves on otherwise. With the threshold at 9/10, two strings of 10
code units that differ by one substitution have similarity exactly 9/10 and
match, and every pair of similarity below 9/10 does not. -/
theorem fuzzy_threshold_boundary (env : Env) (t c : Str) (h : Handle) (e : Entry)
    (hc : normalise env e.originalText = c) (huse : env.USE_LEVENSHTEIN = true)
    (hscan : scanned h e) (hlt : t.length ≤ 100) (hlc : c.length ≤ 100) (hne : t ≠ c)
    (hrep : repetitionTest t c = false) :
    (testEntry env t h e = some false ↔
      env.LEVENSHTEIN_SIMILARITY_THRESHOLD ≤
        1 - (levenshtein t c : ℚ) / ((max t.length c.length : ℕ) : ℚ)) ∧
    (testEntry env t h e = none ↔
      1 - (levenshtein t c : ℚ) / ((max t.length c.length : ℕ) : ℚ) <
        env.LEVENSHTEIN_SIMILARITY_THRESHOLD) ∧
    (env.LEVENSHTEIN_SIMILARITY_THRESHOLD = 9 / 10 →
      (∃ x y u v, u ≠ v ∧ t = x ++ u :: y ∧ c = x ++ v :: y ∧ t.length = 10) →
      1 - (levenshtein t c : ℚ) / ((max t.length c.length : ℕ) : ℚ) = 9 / 10 ∧
        testEntry env t h e = some false) ∧
    (env.LEVENSHTEIN_SIMILARITY_THRESHOLD = 9 / 10 →
      1 - (levenshtein t c : ℚ) / ((max t.length c.length : ℕ) : ℚ) < 9 / 10 →
      testEntry env t h e = none) := by
  have hpos : 0 < max t.length c.length := by
    rcases t with _ | ⟨a, t⟩
    · rcases c with _ | ⟨b, c⟩
      · exact absurd rfl hne
      · simp
    · simp
  have hsim := similarity_of_pos t c hpos
  have hfz : fuzzyTest env t c = true ↔
      env.LEVENSHTEIN_SIMILARITY_THRESHOLD ≤
        1 - (levenshtein t c : ℚ) / ((max t.length c.length : ℕ) : ℚ) := by
    rw [fuzzyTest_iff, hsim]
    exact ⟨fun h' => h'.2.2.2, fun h' => ⟨huse, hlt, hlc, h'⟩⟩
  have hte : testEntry env t h e = if fuzzyTest env t c = true then some false else none := by
    rw [testEntry_eq, if_neg hscan, hc, if_neg hne]
    simp [hrep]
  have h1 : testEntry env t h e = some false ↔
      env.LEVENSHTEIN_SIMILARITY_THRESHOLD ≤
        1 - (levenshtein t c : ℚ) / ((max t.length c.length : ℕ) : ℚ) := by
    rw [hte, ← hfz]
    by_cases hf : fuzzyTest env t c = true <;> simp [hf]
  have h2 : testEntry env t h e = none ↔
      1 - (levenshtein t c : ℚ) / ((max t.length c.length : ℕ) : ℚ) <
        env.LEVENSHTEIN_SIMILARITY_THRESHOLD := by
    rw [← not_le, ← hfz, hte]
    by_cases hf : fuzzyTest env t c = true <;> simp [hf]
  refine ⟨h1, h2, ?_, ?_⟩
  · rintro hthr ⟨x, y, u, v, huv, htx, hcx, hlen⟩
    have hl : levenshtein t c = 1 := by
      rw [htx, hcx]; exact levenshtein_one_substitution x y u v huv
    have hlen' : c.length = 10 := by
      rw [hcx]; rw [htx] at hlen; simpa using hlen
    have hval : 1 - (levenshtein t c : ℚ) / ((max t.length c.length : ℕ) : ℚ) = 9 / 10 := by
      rw [hl, hlen, hlen']; norm_num
    refine ⟨hval, h1.2 ?_⟩
    rw [hval, hthr]
  · intro hthr hlow
    exact h2.2 (by rw [hthr]; exact hlow)

/-- Witness of `fuzzy_threshold_boundary`: `abcdefghij` against the cached
`abcdefghiz` under the default threshold 9/10. -/
theorem fuzzy_threshold_boundary_witness :
    (defaultEnv (utf16 "me")).USE_LEVENSHTEIN = true ∧
    utf16 "abcdefghij" ≠ utf16 "abcdefghiz" ∧
    repetitionTest (utf16 "abcdefghij") (utf16 "abcdefghiz") = false ∧
    1 - (levenshtein (utf16 "abcdefghij") (utf16 "abcdefghiz") : ℚ) /
        ((max (utf16 "abcdefghij").length (utf16 "abcdefghiz").length : ℕ) : ℚ) = 9 / 10 ∧
    testEntry (defaultEnv (utf16 "me")) (utf16 "abcdefghij") 2
        ⟨1, 1000, 1, utf16 "abcdefghiz", utf16 "ann"⟩ = some false :=
  ⟨rfl, by decide, by decide,
    (fuzzy_threshold_boundary (defaultEnv (utf16 "me")) (utf16 "abcdefghij")
      (utf16 "abcdefghiz") 2 ⟨1, 1000, 1, utf16 "abcdefghiz", utf16 "ann"⟩ (by decide) rfl
      (by decide) (by decide) (by decide) (by decide) (by decide)).2.2.1 rfl
      ⟨utf16 "abcdefghi", [], 106, 122, by decide, by decide, by decide, by decide⟩⟩

/-! ## Runs of one code unit -/

theorem isRepetitive_iff (s : Str) :
    isRepetitive s = true ↔ ∃ u n, s = List.replicate n u ∧ 3 ≤ n ∧ isWhiteSpace u = false := by
  constructor
  · intro h
    cases s with
    | nil => simp [isRepetitive] at h
    | cons c rest =>
      simp only [isRepetitive, Bool.and_eq_true, Bool.not_eq_true', decide_eq_true_eq,
        List.all_eq_true, beq_iff_eq] at h
      obtain ⟨⟨h1, h2⟩, h3⟩ := h
      refine ⟨c, rest.length + 1, ?_, by omega, h1⟩
      rw [List.replicate_succ]
      congr 1
      exact List.eq_replicate_iff.2 ⟨rfl, h3⟩
  · rintro ⟨u, n, hs, hn, hu⟩
    obtain ⟨n, rfl⟩ : ∃ n', n = n' + 1 := ⟨n - 1, by omega⟩
    rw [hs, List.replicate_succ]
    simp only [isRepetitive, hu, Bool.not_false, List.length_replicate, Bool.true_and,
      Bool.and_eq_true, decide_eq_true_eq, List.all_eq_true, beq_iff_eq]
    exact ⟨by omega, fun x hx => List.eq_of_mem_replicate hx⟩

theorem repetitionTest_replicate (u : CodeUnit) (m n : Nat) (hm : 3 ≤ m) (hn : 3 ≤ n)
    (hu : isWhiteSpace u = false) :
    repetitionTest (List.replicate n u) (List.replicate m u) = true := by
  have h1 := (isRepetitive_iff (List.replicate n u)).2 ⟨u, n, rfl, hn, hu⟩
  have h2 := (isRepetitive_iff (List.replicate m u)).2 ⟨u, m, rfl, hm, hu⟩
  obtain ⟨n, rfl⟩ : ∃ n', n = n' + 1 := ⟨n - 1, by omega⟩
  obtain ⟨m, rfl⟩ : ∃ m', m = m' + 1 := ⟨m - 1, by omega⟩
  simp only [repetitionTest, h1, h2, Bool.and_self, Bool.true_and, decide_eq_true_eq]
  simp [List.replicate_succ]

theorem runs_of_repetitionTest {a b : Str} (h : repetitionTest a b = true) :
    ∃ u m n, a = List.replicate m u ∧ b = List.replicate n u := by
  simp only [repetitionTest, Bool.and_eq_true, decide_eq_true_eq] at h
  obtain ⟨⟨h1, h2⟩, h3⟩ := h
  obtain ⟨u, m, ha, hm, _⟩ := (isRepetitive_iff a).1 h1
  obtain ⟨v, n, hb, hn, _⟩ := (isRepetitive_iff b).1 h2
  obtain ⟨m, rfl⟩ : ∃ m', m = m' + 1 := ⟨m - 1, by omega⟩
  obtain ⟨n, rfl⟩ : ∃ n', n = n' + 1 := ⟨n - 1, by omega⟩
  rw [ha, hb] at h3
  simp only [List.replicate_succ, List.head?_cons, Option.some.injEq] at h3
  exact ⟨u, m + 1, n + 1, ha, by rw [hb, h3]⟩

theorem not_runs_of_length_eq {a b : Str} (hne : a ≠ b) (hlen : a.length = b.length) :
    ¬ ∃ u m n, a = List.replicate m u ∧ b = List.replicate n u := by
  rintro ⟨u, m, n, ha, hb⟩
  apply hne
  rw [ha, hb] at hlen
  simp only [List.length_replicate] at hlen
  rw [ha, hb, hlen]

/-- C8 (length cutoff). Whatever the threshold, zero included: let `t` be the
normalised incoming text and `c` the normalised text of an entry, different
from one another, at least one of them longer than 100 code units, and not
both runs of one and the same code unit. Then the entry does not match, and
the message, when it has text and is not from the current user, is inserted
into a cache that holds only this entry. Two different strings of 101 code
units are never both runs of the same code unit, so they never match. -/
theorem length_cutoff (env : Env) (msg : Message) (now : Int) (k : Str) (e : Entry)
    (t c : Str) (ht : normalise env msg.messageText = t)
    (hc : normalise env e.originalText = c) (hne : t ≠ c)
    (hlong : 100 < t.length ∨ 100 < c.length)
    (hruns : ¬ ∃ u m n, t = List.replicate m u ∧ c = List.replicate n u)
    (htext : msg.messageText ≠ []) (hself : env.toLowerCase msg.author ≠ env.currentUser) :
    testEntry env t msg.addedNode e = none ∧
      ingest env msg now [(k, e)] = (insertNew env msg now [(k, e)], Decision.inserted) := by
  have hte : testEntry env t msg.addedNode e = none := by
    apply testEntry_none
    intro _
    rw [hc]
    refine ⟨fun h => hne h.symm, ?_, ?_⟩
    · cases hr : repetitionTest t c with
      | false => rfl
      | true => exact absurd (runs_of_repetitionTest hr) hruns
    · cases hf : fuzzyTest env t c with
      | false => rfl
      | true =>
        obtain ⟨_, h1, h2, _⟩ := (fuzzyTest_iff env t c).1 hf
        omega
  refine ⟨hte, ingest_no_match env msg now _ htext hself ?_⟩
  intro p hp
  simp only [List.mem_singleton] at hp
  rw [hp, ht]
  exact hte

set_option maxRecDepth 100000 in
/-- Witness of `length_cutoff`: a hundred `a` followed by `b`, against a
hundred `a` followed by `c`. -/
theorem length_cutoff_witness :
    longB.length = 101 ∧ longC.length = 101 ∧ longB ≠ longC ∧
    testEntry (defaultEnv (utf16 "me")) longB 2 ⟨1, 1000, 1, longC, utf16 "ann"⟩ = none ∧
    ingest (defaultEnv (utf16 "me")) ⟨utf16 "bob", longB, 2⟩ 2000
        [(longC, ⟨1, 1000, 1, longC, utf16 "ann"⟩)] =
      (insertNew (defaultEnv (utf16 "me")) ⟨utf16 "bob", longB, 2⟩ 2000
        [(longC, ⟨1, 1000, 1, longC, utf16 "ann"⟩)], Decision.inserted) :=
  ⟨by decide, by decide, by decide,
    length_cutoff (defaultEnv (utf16 "me")) ⟨utf16 "bob", longB, 2⟩ 2000 longC
      ⟨1, 1000, 1, longC, utf16 "ann"⟩ longB longC (by decide) (by decide) (by decide)
      (Or.inl (by decide)) (not_runs_of_length_eq (by decide) (by decide)) (by decide)
      (by decide)⟩

/-- C9 as stated fails for U+0130 (capital I with dot above), which is not
white space: under the default settings its lower case is the two code units
U+0069 U+0307, so the normalised runs are not runs of one code unit. The cache
holds a run of three of them, a run of four arrives on another node from
another author, and the message is inserted, not merged. -/
theorem repetition_match_counterexample :
    isWhiteSpace 304 = false ∧
    (defaultEnv (utf16 "me")).toLowerCase (utf16 "bob") ≠ (defaultEnv (utf16 "me")).currentUser ∧
    (ingest (defaultEnv (utf16 "me")) ⟨utf16 "bob", List.replicate 4 304, 2⟩ 2000
      [(List.replicate 3 304, ⟨1, 1000, 1, List.replicate 3 304, utf16 "ann"⟩)]).2 =
        Decision.inserted := by
  refine ⟨by decide, by decide, ?_⟩
  rw [ingest_no_match _ _ _ _ (by decide) (by decide)]
  intro p hp
  simp only [List.mem_singleton] at hp
  subst hp
  apply testEntry_none
  intro _
  refine ⟨by decide, by decide, ?_⟩
  rw [fuzzyTest_eq_decide _ _ _ 9 10 (by decide) (defaultEnv_threshold _) (by decide)]
  decide

/-- C9, amended. Let `c` be a code unit whose runs of lengths `m` and `n` are
normalised to the runs of the same lengths of a code unit `c'` that is not
white space (with `IGNORE_CASE` off this holds with `c' = c` for every `c`
that is not white space), and let `m, n >= 3` be different. Whatever the fuzzy
setting and threshold, when the cache holds only an entry whose text is `c`
repeated `m` times and `c` repeated `n` times arrives on another node, not
from the current user, the message is merged into that entry as a non-exact
match and the count of the entry goes up by one. The statement is about one
code unit; a character of two code units is not covered. -/
theorem repetition_match (env : Env) (msg : Message) (now : Int) (k : Str) (e : Entry)
    (c c' : CodeUnit) (m n : Nat) (hm : 3 ≤ m) (hn : 3 ≤ n) (hmn : m ≠ n)
    (hws : isWhiteSpace c' = false) (htext : msg.messageText = List.replicate n c)
    (he : e.originalText = List.replicate m c)
    (hnn : normalise env (List.replicate n c) = List.replicate n c')
    (hnm : normalise env (List.replicate m c) = List.replicate m c')
    (hscan : scanned msg.addedNode e)
    (hself : env.toLowerCase msg.author ≠ env.currentUser) :
    ingest env msg now [(k, e)] =
      ([(k, bump now e)], Decision.merged k (e.count + 1) false) := by
  have hne : msg.messageText ≠ [] := by
    rw [htext]
    intro h0
    have := congrArg List.length h0
    simp only [List.length_replicate, List.length_nil] at this
    omega
  have hte : testEntry env (normalise env msg.messageText) msg.addedNode e = some false := by
    apply testEntry_similar hscan
    · rw [he, htext, hnn, hnm]
      intro h0
      have := congrArg List.length h0
      simp only [List.length_replicate] at this
      exact hmn this
    · left
      rw [he, htext, hnn, hnm]
      exact repetitionTest_replicate c' m n hm hn hws
  exact ingest_first_match env msg now [] [] k e false hne hself (by simp [KeysDistinct])
    (fun p hp => by simp at hp) hte

/-- Witness of `repetition_match`: `??????` arrives while the cache holds
`???`. -/
theorem repetition_match_witness :
    ingest (defaultEnv (utf16 "me")) ⟨utf16 "bob", utf16 "??????", 2⟩ 2000
        [(utf16 "???", ⟨1, 1000, 1, utf16 "???", utf16 "ann"⟩)] =
      ([(utf16 "???", ⟨2, 2000, 1, utf16 "???", utf16 "ann"⟩)],
        Decision.merged (utf16 "???") 2 false) :=
  repetition_match (defaultEnv (utf16 "me")) ⟨utf16 "bob", utf16 "??????", 2⟩ 2000
    (utf16 "???") ⟨1, 1000, 1, utf16 "???", utf16 "ann"⟩ 63 63 3 6 (by decide) (by decide)
    (by decide) (by decide) (by decide) (by decide) (by decide) (by decide) (by decide)
    (by decide)

/-- A character outside the basic plane is two code units, and the pattern of
line 132, which has no `u` flag, sees a run of such characters as an
alternation of two code units: a run of three U+1F600 is not repetitive, and
under the default settings a run of four that arrives while the cache holds a
run of three is inserted. -/
theorem surrogate_run_inserted :
    isRepetitive grinningRun3 = false ∧
    (ingest (defaultEnv (utf16 "me")) ⟨utf16 "bob", grinningRun4, 2⟩ 2000
      [(grinningRun3, ⟨1, 1000, 1, grinningRun3, utf16 "ann"⟩)]).2 = Decision.inserted := by
  refine ⟨by decide, ?_⟩
  rw [ingest_no_match _ _ _ _ (by decide) (by decide)]
  intro p hp
  simp only [List.mem_singleton] at hp
  subst hp
  apply testEntry_none
  intro _
  refine ⟨by decide, by decide, ?_⟩
  rw [fuzzyTest_eq_decide _ _ _ 9 10 (by decide) (defaultEnv_threshold _) (by decide)]
  decide

/-! ## Runs of different code units -/

theorem editDistance_replicate_of_ne (c d : CodeUnit) (hne : d ≠ c) (k m : Nat) :
    editDistance (List.replicate k d) (List.replicate m c) = max k m := by
  induction k generalizing m with
  | zero => simp [editDistance]
  | succ k ihk =>
    induction m with
    | zero => rw [List.replicate_zero, editDistance_nil_right]; simp
    | succ m ihm =>
      have h1 := ihk (m + 1)
      have h2 := ihk m
      rw [List.replicate_succ] at ihm
      rw [List.replicate_succ, List.replicate_succ (n := m), editDistance_cons_cons, if_neg hne,
        ← List.replicate_succ (n := m), h1, h2, ihm]
      omega

theorem similarity_replicate_of_ne (c d : CodeUnit) (hne : d ≠ c) (k m : Nat) (hk : 1 ≤ k) :
    similarity (List.replicate k d) (List.replicate m c) = 0 := by
  have hpos : 0 < max (List.replicate k d).length (List.replicate m c).length := by
    simp only [List.length_replicate]; omega
  rw [similarity_of_pos _ _ hpos, levenshtein_eq_editDistance,
    editDistance_replicate_of_ne c d hne]
  simp only [List.length_replicate]
  have hq : ((max k m : ℕ) : ℚ) ≠ 0 := by
    have : 0 < max k m := by omega
    exact_mod_cast this.ne'
  rw [div_self hq, sub_self]

theorem halfEnv_threshold :
    halfEnv.LEVENSHTEIN_SIMILARITY_THRESHOLD = ((1 : ℕ) : ℚ) / ((2 : ℕ) : ℚ) := by
  simp [halfEnv]

/-- C10 as stated fails: the threshold is one half, `IGNORE_CASE` is on, the
cache holds U+0130 (capital I with dot above) once and `i` arrives once. The
two code units differ, and they still differ after normalisation, which turns
U+0130 into the two code units `i`, U+0307 and leaves `i` as it is. But
`levenshtein` of the normalised texts is 1, not 2, their similarity is one
half, and the message is merged. -/
theorem different_runs_counterexample :
    (0 : ℚ) < halfEnv.LEVENSHTEIN_SIMILARITY_THRESHOLD ∧
    (304 : CodeUnit) ≠ 105 ∧
    normalise halfEnv [304] ≠ normalise halfEnv [105] ∧
    levenshtein (normalise halfEnv [105]) (normalise halfEnv [304]) = 1 ∧
    ingest halfEnv ⟨utf16 "bob", [105], 2⟩ 2000 dottedOneCache =
      ([([304], ⟨2, 2000, 1, [304], utf16 "ann"⟩)], Decision.merged [304] 2 false) := by
  refine ⟨by norm_num [halfEnv], by decide, by decide, by decide, ?_⟩
  apply ingest_first_match halfEnv ⟨utf16 "bob", [105], 2⟩ 2000 [] [] [304]
    ⟨1, 1000, 1, [304], utf16 "ann"⟩ false (by decide) (by decide) (by decide)
    (fun p hp => by simp at hp)
  apply testEntry_similar (by decide) (by decide)
  right
  rw [fuzzyTest_eq_decide _ _ _ 1 2 (by decide) halfEnv_threshold (by decide)]
  decide

/-- C10, amended (runs of different code units). Let the threshold be
positive, and let `c'` and `d'` be different code units. Let the incoming text be `d`
repeated `k >= 1` times, normalised to `d'` repeated `k` times, and let every
entry of the cache have as text a run of `c` of some length `m >= 1`,
normalised to `c'` repeated `m` times. Then for every entry: `levenshtein` of
the two normalised texts is the larger of the two lengths, their similarity is
0, and the entry does not match; and a message that is not from the current
user is inserted. -/
theorem different_runs_no_match (env : Env)
    (hthr : 0 < env.LEVENSHTEIN_SIMILARITY_THRESHOLD) (c d c' d' : CodeUnit) (hne : c' ≠ d')
    (msg : Message) (now : Int) (cache : Cache) (k : Nat) (hk : 1 ≤ k)
    (htext : msg.messageText = List.replicate k d)
    (hnd : normalise env (List.replicate k d) = List.replicate k d')
    (hself : env.toLowerCase msg.author ≠ env.currentUser)
    (hcache : ∀ p ∈ cache, ∃ m, 1 ≤ m ∧ p.2.originalText = List.replicate m c ∧
      normalise env (List.replicate m c) = List.replicate m c') :
    (∀ p ∈ cache,
      levenshtein (normalise env msg.messageText) (normalise env p.2.originalText) =
          max (normalise env msg.messageText).length (normalise env p.2.originalText).length ∧
        similarity (normalise env msg.messageText) (normalise env p.2.originalText) = 0 ∧
        testEntry env (normalise env msg.messageText) msg.addedNode p.2 = none) ∧
      ingest env msg now cache = (insertNew env msg now cache, Decision.inserted) := by
  have hd : d' ≠ c' := fun h => hne h.symm
  have hmsg : msg.messageText ≠ [] := by
    rw [htext]
    intro h0
    have := congrArg List.length h0
    simp only [List.length_replicate, List.length_nil] at this
    omega
  have hall : ∀ p ∈ cache,
      levenshtein (normalise env msg.messageText) (normalise env p.2.originalText) =
          max (normalise env msg.messageText).length (normalise env p.2.originalText).length ∧
        similarity (normalise env msg.messageText) (normalise env p.2.originalText) = 0 ∧
        testEntry env (normalise env msg.messageText) msg.addedNode p.2 = none := by
    intro p hp
    obtain ⟨m, hm, hpt, hpn⟩ := hcache p hp
    rw [htext, hnd, hpt, hpn]
    have hsim := similarity_replicate_of_ne c' d' hd k m hk
    refine ⟨?_, hsim, ?_⟩
    · rw [levenshtein_eq_editDistance, editDistance_replicate_of_ne c' d' hd]
      simp
    · apply testEntry_none
      intro _
      rw [hpt, hpn]
      refine ⟨?_, ?_, ?_⟩
      · intro h0
        obtain ⟨m, rfl⟩ : ∃ m', m = m' + 1 := ⟨m - 1, by omega⟩
        obtain ⟨k, rfl⟩ : ∃ k', k = k' + 1 := ⟨k - 1, by omega⟩
        simp only [List.replicate_succ, List.cons.injEq] at h0
        exact hne h0.1
      · cases hr : repetitionTest (List.replicate k d') (List.replicate m c') with
        | false => rfl
        | true =>
          exfalso
          obtain ⟨m, rfl⟩ : ∃ m', m = m' + 1 := ⟨m - 1, by omega⟩
          obtain ⟨k, rfl⟩ : ∃ k', k = k' + 1 := ⟨k - 1, by omega⟩
          simp only [repetitionTest, Bool.and_eq_true, decide_eq_true_eq, List.replicate_succ,
            List.head?_cons, Option.some.injEq] at hr
          exact hd hr.2
      · cases hf : fuzzyTest env (List.replicate k d') (List.replicate m c') with
        | false => rfl
        | true =>
          exfalso
          have := ((fuzzyTest_iff env _ _).1 hf).2.2.2
          rw [hsim] at this
          exact absurd hthr (not_lt.2 this)
  exact ⟨hall, ingest_no_match env msg now cache hmsg hself (fun p hp => (hall p hp).2.2)⟩

/-- Witness of `different_runs_no_match`: after `???` and `??????`, which
leave one entry of count 2, the message `!!!` is inserted. -/
theorem different_runs_no_match_witness :
    ingestAll (defaultEnv (utf16 "me")) [] questionMarks =
      ([(utf16 "???", ⟨2, 2000, 1, utf16 "???", utf16 "ann"⟩)],
        [Decision.inserted, Decision.merged (utf16 "???") 2 false]) ∧
    (ingest (defaultEnv (utf16 "me")) ⟨utf16 "cy", utf16 "!!!", 3⟩ 3000
      (ingestAll (defaultEnv (utf16 "me")) [] questionMarks).1).2 = Decision.inserted := by
  have h12 : ingestAll (defaultEnv (utf16 "me")) [] questionMarks =
      ([(utf16 "???", ⟨2, 2000, 1, utf16 "???", utf16 "ann"⟩)],
        [Decision.inserted, Decision.merged (utf16 "???") 2 false]) := by decide
  refine ⟨h12, ?_⟩
  rw [(different_runs_no_match (defaultEnv (utf16 "me")) (by norm_num [defaultEnv]) 63 33 63 33
    (by decide) ⟨utf16 "cy", utf16 "!!!", 3⟩ 3000
    (ingestAll (defaultEnv (utf16 "me")) [] questionMarks).1 3 (by decide) (by decide)
    (by decide) (by decide)
    (by
      rw [h12]
      intro p hp
      simp only [List.mem_singleton] at hp
      subst hp
      exact ⟨3, by decide, by decide, by decide⟩)).2]

/-- C11 as stated fails: `??` is not repetitive, since the pattern of line 132
asks for three or more copies. Under the default settings `??????` arrives
while the cache holds only `??`, on another node and from another author; the
similarity is 1/3 and the message is inserted, not merged. -/
theorem short_run_counterexample :
    (defaultEnv (utf16 "me")).toLowerCase (utf16 "bob") ≠ (defaultEnv (utf16 "me")).currentUser ∧
    isRepetitive (utf16 "??") = false ∧
    (ingest (defaultEnv (utf16 "me")) ⟨utf16 "bob", utf16 "??????", 2⟩ 2000 shortRunCache).2 =
      Decision.inserted := by
  refine ⟨by decide, by decide, ?_⟩
  rw [ingest_no_match _ _ _ _ (by decide) (by decide)]
  intro p hp
  simp only [shortRunCache, List.mem_singleton] at hp
  subst hp
  apply testEntry_none
  intro _
  refine ⟨by decide, by decide, ?_⟩
  rw [fuzzyTest_eq_decide _ _ _ 9 10 (by decide) (defaultEnv_threshold _) (by decide)]
  decide

/-- C11, amended. Two normalised texts that are runs of one and the same code
unit, not white space, each of three or more copies, match whatever the two
lengths: when the cache holds only such an entry and the message arrives on
another node, not from the current user, it is merged, as an exact match when
the lengths are equal and as a non-exact match otherwise. -/
theorem run_length_independent (env : Env) (msg : Message) (now : Int) (k : Str) (e : Entry)
    (c' : CodeUnit) (m n : Nat) (hm : 3 ≤ m) (hn : 3 ≤ n) (hws : isWhiteSpace c' = false)
    (hnn : normalise env msg.messageText = List.replicate n c')
    (hnm : normalise env e.originalText = List.replicate m c')
    (htext : msg.messageText ≠ []) (hscan : scanned msg.addedNode e)
    (hself : env.toLowerCase msg.author ≠ env.currentUser) :
    ingest env msg now [(k, e)] =
      ([(k, bump now e)], Decision.merged k (e.count + 1) (decide (m = n))) := by
  have hte : testEntry env (normalise env msg.messageText) msg.addedNode e =
      some (decide (m = n)) := by
    by_cases hmn : m = n
    · simp only [hmn, decide_True]
      exact testEntry_exact hscan (by rw [hnn, hnm, hmn])
    · simp only [hmn, decide_False]
      apply testEntry_similar hscan
      · rw [hnn, hnm]
        intro h0
        have := congrArg List.length h0
        simp only [List.length_replicate] at this
        exact hmn this
      · left
        rw [hnn, hnm]
        exact repetitionTest_replicate c' m n hm hn hws
  exact ingest_first_match env msg now [] [] k e _ htext hself (by simp [KeysDistinct])
    (fun p hp => by simp at hp) hte

/-- Witness of `run_length_independent`: `??????` arrives while the cache
holds only `???`. -/
theorem run_length_independent_witness :
    ingest (defaultEnv (utf16 "me")) ⟨utf16 "bob", utf16 "??????", 2⟩ 2000 runCache =
      ([(utf16 "???", ⟨2, 2000, 1, utf16 "???", utf16 "ann"⟩)],
        Decision.merged (utf16 "???") 2 false) :=
  run_length_independent (defaultEnv (utf16 "me")) ⟨utf16 "bob", utf16 "??????", 2⟩ 2000
    (utf16 "???") ⟨1, 1000, 1, utf16 "???", utf16 "ann"⟩ 63 3 6 (by decide) (by decide)
    (by decide) (by decide) (by decide) (by decide) (by decide) (by decide)

/-- C12 (self-skip). Whatever the cache and the text, a message whose author,
lower-cased, equals `currentUser` leaves the cache as it was, and the callback
takes neither the merge nor the insert branch: it stops at line 113, or
already at line 106 when the text is empty. -/
theorem self_skip (env : Env) (msg : Message) (now : Int) (cache : Cache)
    (hself : env.toLowerCase msg.author = env.currentUser) :
    (ingest env msg now cache).1 = cache ∧
      (ingest env msg now cache).2 =
        if msg.messageText = [] then Decision.dropped else Decision.skipped := by
  unfold ingest
  by_cases ht : msg.messageText = []
  · simp [ht]
  · simp [ht, hself]

/-- Witness of `self_skip`: the current user `me` writes `hello` under the
name `Me` while the cache holds `good game` and `hello`. -/
theorem self_skip_witness :
    (defaultEnv (utf16 "me")).toLowerCase (utf16 "Me") = (defaultEnv (utf16 "me")).currentUser ∧
    ingest (defaultEnv (utf16 "me")) ⟨utf16 "Me", utf16 "hello", 3⟩ 3000 greetCache =
      (greetCache, Decision.skipped) := by
  have h := self_skip (defaultEnv (utf16 "me")) ⟨utf16 "Me", utf16 "hello", 3⟩ 3000 greetCache
    (by decide)
  exact ⟨by decide, Prod.ext h.1 h.2⟩

/-- C13, the engine at the failing input: no user has been detected, so
`currentUser` still is the empty string of line 240; `hello` arrives without
an author, which line 110 turns into the empty string; the two defaults are
equal at line 111 and the message is skipped, where the claim has it merged or
inserted. -/
theorem missing_author_skipped :
    undetectedEnv.currentUser = [] ∧
    ingest undetectedEnv ⟨[], utf16 "hello", 1⟩ 1000 [] = ([], Decision.skipped) := by
  decide

/-- Once a user has been detected, the missing author is not taken for the
user: when the lower-cased empty string differs from `currentUser`, a message
with text whose author is the empty string is merged or inserted. -/
theorem missing_author_not_self (env : Env) (msg : Message) (now : Int) (cache : Cache)
    (hauthor : msg.author = []) (htext : msg.messageText ≠ [])
    (huser : env.toLowerCase [] ≠ env.currentUser) :
    (∃ k n ex, (ingest env msg now cache).2 = Decision.merged k n ex) ∨
      (ingest env msg now cache).2 = Decision.inserted := by
  unfold ingest
  rw [if_neg htext]
  simp only
  rw [hauthor, if_neg huser]
  split
  · split
    · exact Or.inl ⟨_, _, _, rfl⟩
    · exact Or.inr rfl
  · exact Or.inr rfl

/-- Witness of `missing_author_not_self`: the user `me` is detected and
`hello` arrives without an author while the cache holds `good game` and
`hello`. -/
theorem missing_author_not_self_witness :
    (defaultEnv (utf16 "me")).toLowerCase [] ≠ (defaultEnv (utf16 "me")).currentUser ∧
    ((∃ k n ex, (ingest (defaultEnv (utf16 "me")) ⟨[], utf16 "hello", 3⟩ 3000 greetCache).2 =
        Decision.merged k n ex) ∨
      (ingest (defaultEnv (utf16 "me")) ⟨[], utf16 "hello", 3⟩ 3000 greetCache).2 =
        Decision.inserted) :=
  ⟨by decide, missing_author_not_self (defaultEnv (utf16 "me")) ⟨[], utf16 "hello", 3⟩ 3000
    greetCache rfl (by decide) (by decide)⟩

/-- C14 (case folding on). With `IGNORE_CASE` on, let the lower-cased incoming
text equal the lower-cased text of an entry `(k, e)` on another node, no entry
before it that the scan looks at passing any test, and let the message have
text and not be from the current user. Then it is merged into `(k, e)` as an
exact match; the entry is bumped in place and keeps its key and the
`originalText` first seen. -/
theorem case_folding_on (env : Env) (msg : Message) (now : Int) (pre post : Cache)
    (k : Str) (e : Entry) (hcase : env.IGNORE_CASE = true)
    (hlower : env.toLowerCase msg.messageText = env.toLowerCase e.originalText)
    (ht : msg.messageText ≠ []) (hself : env.toLowerCase msg.author ≠ env.currentUser)
    (hd : KeysDistinct (pre ++ (k, e) :: post)) (hscan : scanned msg.addedNode e)
    (hpre : ∀ p ∈ pre, scanned msg.addedNode p.2 →
      normalise env p.2.originalText ≠ normalise env msg.messageText ∧
      repetitionTest (normalise env msg.messageText) (normalise env p.2.originalText) = false ∧
      fuzzyTest env (normalise env msg.messageText) (normalise env p.2.originalText) = false) :
    ingest env msg now (pre ++ (k, e) :: post) =
        (pre ++ (k, bump now e) :: post, Decision.merged k (e.count + 1) true) ∧
      (bump now e).originalText = e.originalText := by
  have hnorm : normalise env e.originalText = normalise env msg.messageText := by
    simp only [normalise, hcase, if_true, hlower]
  refine ⟨?_, rfl⟩
  apply ingest_first_match env msg now pre post k e true ht hself hd
  · exact fun p hp => testEntry_none (hpre p hp)
  · exact testEntry_exact hscan hnorm

/-- Witness of `case_folding_on`: `Hello` arrives while the cache holds
`good game` and then `hello`; the target keeps the text `hello`. -/
theorem case_folding_on_witness :
    ingest (defaultEnv (utf16 "me")) ⟨utf16 "cy", utf16 "Hello", 3⟩ 3000 greetCache =
        ([(utf16 "good game", ⟨1, 1000, 1, utf16 "good game", utf16 "ann"⟩),
          (utf16 "hello", ⟨5, 3000, 2, utf16 "hello", utf16 "bob"⟩)],
          Decision.merged (utf16 "hello") 5 true) ∧
      (bump 3000 ⟨4, 2000, 2, utf16 "hello", utf16 "bob"⟩).originalText = utf16 "hello" :=
  case_folding_on (defaultEnv (utf16 "me")) ⟨utf16 "cy", utf16 "Hello", 3⟩ 3000
    [(utf16 "good game", ⟨1, 1000, 1, utf16 "good game", utf16 "ann"⟩)] []
    (utf16 "hello") ⟨4, 2000, 2, utf16 "hello", utf16 "bob"⟩ rfl (by decide) (by decide)
    (by decide) (by decide) (by decide)
    (by
      intro p hp _
      simp only [List.mem_singleton] at hp
      subst hp
      refine ⟨by decide, by decide, ?_⟩
      rw [fuzzyTest_eq_decide _ _ _ 9 10 (by decide) (defaultEnv_threshold _) (by decide)]
      decide)

theorem caseEnv_threshold :
    caseEnv.LEVENSHTEIN_SIMILARITY_THRESHOLD = ((9 : ℕ) : ℚ) / ((10 : ℕ) : ℚ) := by
  simp [caseEnv, defaultEnv]

set_option maxRecDepth 10000 in
/-- C15 as stated fails: with `IGNORE_CASE` off and the other settings at
their defaults, `Hello world` and `hello world` differ only in the case of one
letter, their similarity is 10/11, above the threshold 9/10, and `Hello world`
is merged into the entry `hello world` as a non-exact match. -/
theorem case_folding_off_counterexample :
    caseEnv.IGNORE_CASE = false ∧
    sampleLower (utf16 "Hello world") = sampleLower (utf16 "hello world") ∧
    utf16 "Hello world" ≠ utf16 "hello world" ∧
    ingest caseEnv ⟨utf16 "bob", utf16 "Hello world", 2⟩ 2000 lowerWorldCache =
      ([(utf16 "hello world", ⟨2, 2000, 1, utf16 "hello world", utf16 "ann"⟩)],
        Decision.merged (utf16 "hello world") 2 false) := by
  refine ⟨rfl, by decide, by decide, ?_⟩
  apply ingest_first_match caseEnv ⟨utf16 "bob", utf16 "Hello world", 2⟩ 2000 [] []
    (utf16 "hello world") ⟨1, 1000, 1, utf16 "hello world", utf16 "ann"⟩ false (by decide)
    (by decide) (by decide) (fun p hp => by simp at hp)
  apply testEntry_similar (by decide) (by decide)
  right
  rw [fuzzyTest_eq_decide _ _ _ 9 10 (by decide) caseEnv_threshold (by decide)]
  decide

/-- C15, amended. With `IGNORE_CASE` off, let the incoming text and the text
of the only entry of the cache be different and of the same length, as two
texts are that differ only in letter case, and let the message have text and
not be from the current user. Then the two texts pass neither the exact test
nor the repetition test. When they do not pass the fuzzy test either, the
scan finds no match and the message is inserted; the cache then holds the two
entries, the old one first, when the key of the entry is its text and
`MAX_CACHE_SIZE` is at least 2. When they pass the fuzzy test and the entry is
on another node, the message is merged into the entry as a non-exact
match. -/
theorem case_folding_off (env : Env) (msg : Message) (now : Int) (k : Str) (e : Entry)
    (hcase : env.IGNORE_CASE = false) (hne : msg.messageText ≠ e.originalText)
    (hlen : msg.messageText.length = e.originalText.length)
    (ht : msg.messageText ≠ []) (hself : env.toLowerCase msg.author ≠ env.currentUser) :
    normalise env msg.messageText ≠ normalise env e.originalText ∧
      repetitionTest (normalise env msg.messageText) (normalise env e.originalText) = false ∧
      (fuzzyTest env msg.messageText e.originalText = false →
        scan env (normalise env msg.messageText) msg.addedNode [(k, e)] = none ∧
          (ingest env msg now [(k, e)]).2 = Decision.inserted ∧
          (k = e.originalText → 2 ≤ env.MAX_CACHE_SIZE →
            (ingest env msg now [(k, e)]).1 =
              [(k, e), (msg.messageText, newEntry msg now)])) ∧
      (fuzzyTest env msg.messageText e.originalText = true → scanned msg.addedNode e →
        ingest env msg now [(k, e)] =
          ([(k, bump now e)], Decision.merged k (e.count + 1) false)) := by
  have hn1 : normalise env msg.messageText = msg.messageText := by simp [normalise, hcase]
  have hn2 : normalise env e.originalText = e.originalText := by simp [normalise, hcase]
  have hrep : repetitionTest msg.messageText e.originalText = false := by
    cases hr : repetitionTest msg.messageText e.originalText with
    | false => rfl
    | true => exact absurd (runs_of_repetitionTest hr) (not_runs_of_length_eq hne hlen)
  refine ⟨by rw [hn1, hn2]; exact hne, by rw [hn1, hn2]; exact hrep, ?_, ?_⟩
  · intro hfuzzy
    have hall : ∀ p ∈ [(k, e)],
        testEntry env (normalise env msg.messageText) msg.addedNode p.2 = none := by
      intro p hp
      simp only [List.mem_singleton] at hp
      subst hp
      apply testEntry_none
      intro _
      rw [hn1, hn2]
      exact ⟨fun h => hne h.symm, hrep, hfuzzy⟩
    have hing := ingest_no_match env msg now [(k, e)] ht hself hall
    refine ⟨scan_eq_none env _ _ _ hall, by rw [hing], ?_⟩
    intro hk hmax
    rw [hing]
    have hev : evictOldest env [(k, e)] = [(k, e)] := by
      unfold evictOldest
      rw [if_neg (by simp only [List.length_singleton, Nat.cast_one]; omega)]
    simp only [insertNew, hev, mapSet]
    rw [if_neg (by rw [hk]; exact fun h => hne h.symm)]
  · intro hfuzzy hscan
    apply ingest_first_match env msg now [] [] k e false ht hself (by simp [KeysDistinct])
      (fun p hp => by simp at hp)
    apply testEntry_similar hscan
    · rw [hn1, hn2]; exact fun h => hne h.symm
    · right; rw [hn1, hn2]; exact hfuzzy

/-- Witness of `case_folding_off`: `Hello` arrives while the cache holds only
`hello`; the similarity is 4/5, below the threshold, and the message is
inserted. -/
theorem case_folding_off_witness :
    normalise caseEnv (utf16 "Hello") ≠ normalise caseEnv (utf16 "hello") ∧
    repetitionTest (normalise caseEnv (utf16 "Hello")) (normalise caseEnv (utf16 "hello")) =
      false ∧
    (ingest caseEnv ⟨utf16 "bob", utf16 "Hello", 2⟩ 2000 lowerHelloCache).2 =
        Decision.inserted ∧
      (ingest caseEnv ⟨utf16 "bob", utf16 "Hello", 2⟩ 2000 lowerHelloCache).1 =
        [(utf16 "hello", ⟨1, 1000, 1, utf16 "hello", utf16 "ann"⟩),
         (utf16 "Hello", ⟨1, 2000, 2, utf16 "Hello", utf16 "bob"⟩)] := by
  have h := case_folding_off caseEnv ⟨utf16 "bob", utf16 "Hello", 2⟩ 2000 (utf16 "hello")
    ⟨1, 1000, 1, utf16 "hello", utf16 "ann"⟩ rfl (by decide) (by decide) (by decide)
    (by decide)
  have hfuzzy : fuzzyTest caseEnv (utf16 "Hello") (utf16 "hello") = false := by
    rw [fuzzyTest_eq_decide _ _ _ 9 10 (by decide) caseEnv_threshold (by decide)]
    decide
  exact ⟨h.1, h.2.1, (h.2.2.1 hfuzzy).2.1, (h.2.2.1 hfuzzy).2.2 (by decide) (by decide)⟩

/-! ## What a merge changes -/

theorem mapGet_split {cache : Cache} {k : Str} {e : Entry} (h : mapGet cache k = some e) :
    ∃ pre post, cache = pre ++ (k, e) :: post ∧ (∀ p ∈ pre, p.1 ≠ k) ∧
      ∀ value, mapSet cache k value = pre ++ (k, value) :: post := by
  induction cache with
  | nil => simp [mapGet] at h
  | cons q rest ih =>
    obtain ⟨k', e'⟩ := q
    by_cases hk : k' = k
    · subst hk
      have he : e' = e := by simpa [mapGet] using h
      subst he
      exact ⟨[], rest, rfl, fun p hp => by simp at hp, fun value => by simp [mapSet]⟩
    · have h' : mapGet rest k = some e := by
        simpa [mapGet, List.find?_cons, hk] using h
      obtain ⟨pre, post, h1, h2, h3⟩ := ih h'
      refine ⟨(k', e') :: pre, post, by rw [h1]; rfl, ?_, ?_⟩
      · intro p hp
        rcases List.mem_cons.1 hp with hp | hp
        · rw [hp]; exact hk
        · exact h2 p hp
      · intro value
        simp only [mapSet, hk, if_false, List.cons_append]
        exact congrArg _ (h3 value)

/-- The callback merges only through lines 155 to 157: the first entry with
the target key is bumped in place. -/
theorem ingest_merged {env : Env} {msg : Message} {now : Int} {cache : Cache}
    {k : Str} {n : Nat} {ex : Bool}
    (hmerged : (ingest env msg now cache).2 = Decision.merged k n ex) :
    ∃ pre e post, cache = pre ++ (k, e) :: post ∧ (∀ p ∈ pre, p.1 ≠ k) ∧
      n = e.count + 1 ∧ (ingest env msg now cache).1 = pre ++ (k, bump now e) :: post := by
  by_cases ht : msg.messageText = []
  · simp [ingest, ht] at hmerged
  by_cases hs : env.toLowerCase msg.author = env.currentUser
  · simp [ingest, ht, hs] at hmerged
  rcases hsc : scan env (normalise env msg.messageText) msg.addedNode cache with _ | ⟨mk, isExact⟩
  · simp [ingest, ht, hs, hsc] at hmerged
  rcases hg : mapGet cache mk with _ | entry
  · simp [ingest, ht, hs, hsc, hg] at hmerged
  have hres : ingest env msg now cache =
      (mapSet cache mk (bump now entry), Decision.merged mk (entry.count + 1) isExact) := by
    simp [ingest, ht, hs, hsc, hg]
  rw [hres] at hmerged ⊢
  simp only [Decision.merged.injEq] at hmerged
  obtain ⟨h1, h2, _⟩ := hmerged
  subst h1
  obtain ⟨pre, post, hsplit, hpre, hset⟩ := mapGet_split hg
  exact ⟨pre, entry, post, hsplit, hpre, h2.symm, by rw [hset]⟩

/-- C16 (merge bookkeeping). Whenever the callback merges, with target key `k`
and new count `n`, the cache was `pre ++ (k, e) :: post` with no key `k` in
`pre`, and it becomes `pre ++ (k, e') :: post`: keys, order and every other
entry are as before, and `e'` is `e` with `count` raised by one, which is `n`,
and `lastSeen` set to the time of the call; `originalText`, `author` and
`node` of the target are unchanged. -/
theorem merge_bookkeeping (env : Env) (msg : Message) (now : Int) (cache : Cache)
    (k : Str) (n : Nat) (ex : Bool)
    (hmerged : (ingest env msg now cache).2 = Decision.merged k n ex) :
    ∃ pre e post, cache = pre ++ (k, e) :: post ∧ (∀ p ∈ pre, p.1 ≠ k) ∧
      n = e.count + 1 ∧
      (ingest env msg now cache).1 =
        pre ++ (k, { count := e.count + 1, lastSeen := now, node := e.node,
                     originalText := e.originalText, author := e.author }) :: post := by
  obtain ⟨pre, e, post, h1, h2, h3, h4⟩ := ingest_merged hmerged
  exact ⟨pre, e, post, h1, h2, h3, by rw [h4]; rfl⟩

/-- Witness of `merge_bookkeeping`: `???` arrives while the cache holds `????`
and then `???`; the callback merges into the first entry. -/
theorem merge_bookkeeping_witness :
    (ingest (defaultEnv (utf16 "me")) ⟨utf16 "cy", utf16 "???", 3⟩ 3000 runsCache).2 =
        Decision.merged (utf16 "????") 2 false ∧
    ∃ pre e post, runsCache = pre ++ (utf16 "????", e) :: post ∧
      (∀ p ∈ pre, p.1 ≠ utf16 "????") ∧ 2 = e.count + 1 ∧
      (ingest (defaultEnv (utf16 "me")) ⟨utf16 "cy", utf16 "???", 3⟩ 3000 runsCache).1 =
        pre ++ (utf16 "????", ⟨e.count + 1, 3000, e.node, e.originalText, e.author⟩) :: post :=
  ⟨by decide, merge_bookkeeping (defaultEnv (utf16 "me")) ⟨utf16 "cy", utf16 "???", 3⟩ 3000
    runsCache (utf16 "????") 2 false (by decide)⟩

/-- C17 (the sweep is idempotent). For a cache with distinct keys and any
time `now`, a second `cleanCache` at the same time leaves the cache of the
first one as it is and deletes nothing. -/
theorem sweep_idempotent (env : Env) (now : Int) (cache : Cache) (hd : KeysDistinct cache) :
    cleanCache env now (cleanCache env now cache).1 = ((cleanCache env now cache).1, []) := by
  have hd' : KeysDistinct (cleanCache env now cache).1 :=
    keysDistinct_of_sublist (cleanCache_sublist env now cache) hd
  have h2 := cleanCache_fold env now (cleanCache env now cache).1 [] [] (by simpa using hd')
  have h1 := cleanCache_fold env now cache [] [] (by simpa using hd)
  simp only [List.nil_append] at h1 h2
  have hc : (cleanCache env now cache).1 =
      cache.filter (fun p => decide (now - p.2.lastSeen ≤ env.MESSAGE_CACHE_TIME)) := by
    unfold cleanCache
    have := congrArg Prod.fst h1
    simpa using this
  unfold cleanCache at h2 ⊢
  unfold cleanCache at hc
  rw [h2, hc]
  congr 1
  · rw [List.filter_filter]
    simp
  · rw [List.filter_filter, List.filter_eq_nil_iff]
    intro p _
    simp only [Bool.and_eq_true, decide_eq_true_eq, not_and]
    intro h1 h2
    omega

/-- Witness of `sweep_idempotent`: the cache of three entries, swept twice at
time 61001. -/
theorem sweep_idempotent_witness :
    KeysDistinct agedCache ∧
    cleanCache (defaultEnv (utf16 "me")) 61001
        (cleanCache (defaultEnv (utf16 "me")) 61001 agedCache).1 =
      ((cleanCache (defaultEnv (utf16 "me")) 61001 agedCache).1, []) :=
  ⟨by decide, sweep_idempotent (defaultEnv (utf16 "me")) 61001 agedCache (by decide)⟩

/-! ## The text shown for a merged entry -/

theorem mapGet_append_of_ne {pre post : Cache} {k : Str} (e : Entry)
    (hpre : ∀ p ∈ pre, p.1 ≠ k) : mapGet (pre ++ (k, e) :: post) k = some e := by
  induction pre with
  | nil => simp [mapGet]
  | cons q pre ih =>
    have hq : q.1 ≠ k := hpre q (List.mem_cons_self _ _)
    have := ih (fun p hp => hpre p (List.mem_cons_of_mem _ hp))
    simp only [mapGet, List.cons_append, List.find?_cons, hq, decide_False] at this ⊢
    exact this

/-- C18 as stated fails: the text written for a merge does not start with the
multiplication sign. `hello` arrives while the cache holds `hello` once; the
text written is U+1F465 (two code units) and a space, followed by `×2: hello`. -/
theorem display_text_counterexample :
    writtenText (defaultEnv (utf16 "me")) ⟨utf16 "bob", utf16 "hello", 2⟩ 2000 lowerHelloCache =
      some ([55357, 56421, 32] ++ utf16 "×2: hello") ∧
    [55357, 56421, 32] ++ utf16 "×2: hello" ≠ utf16 "×2: hello" := by
  decide

/-- C18, amended. For every merge, with target key `k` and new count `n`, the
text written to the message body of the target is exactly: the two code units
of U+1F465, a space, the multiplication sign U+00D7, the decimal digits of
`n`, a colon, a space, and the `originalText` of the target, with nothing
before or after. -/
theorem display_text (env : Env) (msg : Message) (now : Int) (cache : Cache)
    (k : Str) (n : Nat) (ex : Bool)
    (hmerged : (ingest env msg now cache).2 = Decision.merged k n ex) :
    ∃ pre e post, cache = pre ++ (k, e) :: post ∧ (∀ p ∈ pre, p.1 ≠ k) ∧
      writtenText env msg now cache =
        some ([55357, 56421, 32, 215] ++ decimal n ++ [58, 32] ++ e.originalText) := by
  obtain ⟨pre, e, post, h1, h2, h3, h4⟩ := ingest_merged hmerged
  refine ⟨pre, e, post, h1, h2, ?_⟩
  unfold writtenText
  rw [hmerged]
  simp only
  rw [h4, mapGet_append_of_ne _ h2, h3]
  rfl

/-- Witness of `display_text`: `???` arrives while the cache holds `????` and
then `???`. -/
theorem display_text_witness :
    (ingest (defaultEnv (utf16 "me")) ⟨utf16 "cy", utf16 "???", 3⟩ 3000 runsCache).2 =
        Decision.merged (utf16 "????") 2 false ∧
    ∃ pre e post, runsCache = pre ++ (utf16 "????", e) :: post ∧
      (∀ p ∈ pre, p.1 ≠ utf16 "????") ∧
      writtenText (defaultEnv (utf16 "me")) ⟨utf16 "cy", utf16 "???", 3⟩ 3000 runsCache =
        some ([55357, 56421, 32, 215] ++ decimal 2 ++ [58, 32] ++ e.originalText) :=
  ⟨by decide, display_text (defaultEnv (utf16 "me")) ⟨utf16 "cy", utf16 "???", 3⟩ 3000
    runsCache (utf16 "????") 2 false (by decide)⟩

/-- C19 (`levenshtein` is the edit distance). For all strings, `levenshtein`
equals the edit distance by the recursion on the heads of the two strings;
that number of insertions, deletions and substitutions of one code unit turns
the first string into the second, and no smaller number does. Hence
`similarity` is 1 for two empty strings and otherwise 1 minus the edit
distance over the larger length. -/
theorem levenshtein_is_edit_distance (a b : Str) :
    levenshtein a b = editDistance a b ∧
      EditScript a b (levenshtein a b) ∧
      (∀ n, EditScript a b n → levenshtein a b ≤ n) ∧
      similarity a b =
        if a = [] ∧ b = [] then 1
        else 1 - (editDistance a b : ℚ) / ((max a.length b.length : ℕ) : ℚ) := by
  have h := levenshtein_eq_editDistance a b
  refine ⟨h, ?_, ?_, ?_⟩
  · rw [h]; exact editScript_editDistance a b
  · intro n hn
    rw [h]; exact editDistance_le_of_script hn
  · by_cases hab : a = [] ∧ b = []
    · rw [if_pos hab, hab.1, hab.2]
      simp [similarity]
    · rw [if_neg hab]
      have hpos : 0 < max a.length b.length := by
        rcases a with _ | ⟨x, a⟩
        · rcases b with _ | ⟨y, b⟩
          · exact absurd ⟨rfl, rfl⟩ hab
          · simp
        · simp
      rw [similarity_of_pos a b hpos, h]

/-! ## The three tests are symmetric -/

theorem editScript_symm {a b : Str} {n : Nat} (h : EditScript a b n) : EditScript b a n := by
  induction h with
  | done => exact EditScript.done
  | delete x _ ih => exact EditScript.insert x ih
  | insert y _ ih => exact EditScript.delete y ih
  | keep x _ ih => exact EditScript.keep x ih
  | substitute x y _ ih => exact EditScript.substitute y x ih

theorem editDistance_comm (a b : Str) : editDistance a b = editDistance b a :=
  Nat.le_antisymm
    (editDistance_le_of_script (editScript_symm (editScript_editDistance b a)))
    (editDistance_le_of_script (editScript_symm (editScript_editDistance a b)))

theorem levenshtein_comm (a b : Str) : levenshtein a b = levenshtein b a := by
  rw [levenshtein_eq_editDistance, levenshtein_eq_editDistance, editDistance_comm]

theorem similarity_comm (a b : Str) : similarity a b = similarity b a := by
  unfold similarity
  rw [levenshtein_comm a b, Nat.max_comm a.length b.length]

theorem repetitionTest_comm (a b : Str) : repetitionTest a b = repetitionTest b a := by
  unfold repetitionTest
  rw [Bool.and_comm (isRepetitive a) (isRepetitive b)]
  congr 1
  exact decide_eq_decide.2 ⟨fun h => h.symm, fun h => h.symm⟩

theorem fuzzyTest_comm (env : Env) (a b : Str) : fuzzyTest env a b = fuzzyTest env b a := by
  unfold fuzzyTest
  rw [similarity_comm a b]
  cases env.USE_LEVENSHTEIN <;> cases decide (a.length ≤ 100) <;>
    cases decide (b.length ≤ 100) <;> rfl

theorem textsMatch_comm (env : Env) (a b : Str) : textsMatch env a b ↔ textsMatch env b a := by
  unfold textsMatch
  rw [repetitionTest_comm a b, fuzzyTest_comm env a b]
  exact ⟨fun h => h.imp Eq.symm id, fun h => h.imp Eq.symm id⟩

theorem not_textsMatch_of_testEntry_none {env : Env} {t : Str} {h : Handle} {e : Entry}
    (hs : scanned h e) (hn : testEntry env t h e = none) :
    ¬ textsMatch env t (normalise env e.originalText) := by
  rw [testEntry_eq, if_neg hs] at hn
  intro hm
  by_cases h1 : t = normalise env e.originalText
  · rw [if_pos h1] at hn; simp at hn
  · rw [if_neg h1] at hn
    rcases hm with hm | hm
    · exact h1 hm
    · rw [if_pos hm] at hn; simp at hn

theorem testEntry_none_of_not_textsMatch {env : Env} {t : Str} {h : Handle} {e : Entry}
    (hm : ¬ textsMatch env t (normalise env e.originalText)) : testEntry env t h e = none := by
  apply testEntry_none
  intro _
  refine ⟨fun h1 => hm (Or.inl h1.symm), ?_, ?_⟩
  · cases hr : repetitionTest t (normalise env e.originalText) with
    | false => rfl
    | true => exact absurd (Or.inr (Or.inl hr)) hm
  · cases hf : fuzzyTest env t (normalise env e.originalText) with
    | false => rfl
    | true => exact absurd (Or.inr (Or.inr hf)) hm

theorem scan_none_all {env : Env} {t : Str} {h : Handle} {cache : Cache}
    (hs : scan env t h cache = none) : ∀ p ∈ cache, testEntry env t h p.2 = none := by
  induction cache with
  | nil => intro p hp; simp at hp
  | cons q rest ih =>
    obtain ⟨k, e⟩ := q
    unfold scan at hs
    split at hs
    · simp at hs
    · rename_i hq
      intro p hp
      rcases List.mem_cons.1 hp with hp | hp
      · rw [hp]; exact hq
      · exact ih hs p hp

theorem mapGet_isSome_of_mem {cache : Cache} {k : Str} {e : Entry} (h : (k, e) ∈ cache) :
    ∃ e', mapGet cache k = some e' := by
  induction cache with
  | nil => simp at h
  | cons q rest ih =>
    obtain ⟨k', e'⟩ := q
    by_cases hk : k' = k
    · exact ⟨e', by simp [mapGet, hk]⟩
    · rcases List.mem_cons.1 h with h | h
      · exact absurd (congrArg Prod.fst h).symm hk
      · obtain ⟨e'', he⟩ := ih h
        exact ⟨e'', by simpa [mapGet, List.find?_cons, hk] using he⟩

theorem mapSet_of_not_mem {cache : Cache} {key : Str} (value : Entry)
    (h : ∀ p ∈ cache, p.1 ≠ key) : mapSet cache key value = cache ++ [(key, value)] := by
  induction cache with
  | nil => rfl
  | cons q rest ih =>
    obtain ⟨k, e⟩ := q
    have hk : k ≠ key := h (k, e) (List.mem_cons_self _ _)
    simp only [mapSet, hk, if_false, List.cons_append]
    exact congrArg _ (ih (fun p hp => h p (List.mem_cons_of_mem _ hp)))

/-! ## With a new node for every message, live entries stay apart -/

theorem separated_of_sublist {env : Env} {c c' : Cache} (hs : c'.Sublist c)
    (h : Separated env c) : Separated env c' :=
  ⟨fun p hp => h.1 p (hs.subset hp),
    List.Pairwise.sublist (hs.map _) h.2⟩

theorem separated_ingest (env : Env) (msg : Message) (now : Int) {cache : Cache}
    (hsep : Separated env cache) (hfresh : ∀ p ∈ cache, p.2.node ≠ msg.addedNode) :
    Separated env (ingest env msg now cache).1 ∧
      ∀ p ∈ (ingest env msg now cache).1,
        p.2.node = msg.addedNode ∨ ∃ q ∈ cache, q.2.node = p.2.node := by
  have hsame : Separated env cache ∧
      ∀ p ∈ cache, p.2.node = msg.addedNode ∨ ∃ q ∈ cache, q.2.node = p.2.node :=
    ⟨hsep, fun p hp => Or.inr ⟨p, hp, rfl⟩⟩
  by_cases ht : msg.messageText = []
  · simpa [ingest, ht] using hsame
  by_cases hs : env.toLowerCase msg.author = env.currentUser
  · simpa [ingest, ht, hs] using hsame
  rcases hsc : scan env (normalise env msg.messageText) msg.addedNode cache with _ | ⟨mk, isExact⟩
  · -- no match: the oldest entry may go, the new one is appended
    have hres : ingest env msg now cache = (insertNew env msg now cache, Decision.inserted) := by
      simp [ingest, ht, hs, hsc]
    rw [hres]
    have hnone := scan_none_all hsc
    have hno : ∀ p ∈ cache,
        ¬ textsMatch env (normalise env msg.messageText) (normalise env p.2.originalText) :=
      fun p hp => not_textsMatch_of_testEntry_none (hfresh p hp) (hnone p hp)
    have hev := evictOldest_sublist env cache
    have hkey : ∀ p ∈ evictOldest env cache, p.1 ≠ msg.messageText := by
      intro p hp heq
      have hp' := hev.subset hp
      apply hno p hp'
      left
      rw [← hsep.1 p hp', heq]
    have hset : insertNew env msg now cache =
        evictOldest env cache ++ [(msg.messageText, newEntry msg now)] := by
      unfold insertNew
      exact mapSet_of_not_mem _ hkey
    have hsep' := separated_of_sublist hev hsep
    simp only
    rw [hset]
    refine ⟨⟨?_, ?_⟩, ?_⟩
    · intro p hp
      rcases List.mem_append.1 hp with hp | hp
      · exact hsep'.1 p hp
      · simp only [List.mem_singleton] at hp
        rw [hp]; rfl
    · unfold normalisedTexts
      rw [List.map_append, List.pairwise_append]
      refine ⟨hsep'.2, by simp, ?_⟩
      intro a ha b hb
      simp only [List.map_cons, List.map_nil, List.mem_singleton] at hb
      obtain ⟨p, hp, rfl⟩ := List.mem_map.1 ha
      rw [hb]
      exact fun hm => hno p (hev.subset hp) ((textsMatch_comm env _ _).1 hm)
    · intro p hp
      rcases List.mem_append.1 hp with hp | hp
      · exact Or.inr ⟨p, hev.subset hp, rfl⟩
      · simp only [List.mem_singleton] at hp
        left; rw [hp]; rfl
  · -- a match: the target is bumped in place
    obtain ⟨e0, hmem, _⟩ := scan_some hsc
    obtain ⟨entry, hg⟩ := mapGet_isSome_of_mem hmem
    have hres : ingest env msg now cache =
        (mapSet cache mk (bump now entry), Decision.merged mk (entry.count + 1) isExact) := by
      simp [ingest, ht, hs, hsc, hg]
    rw [hres]
    obtain ⟨pre, post, hsplit, _, hset⟩ := mapGet_split hg
    simp only
    rw [hset]
    have htexts : normalisedTexts env (pre ++ (mk, bump now entry) :: post) =
        normalisedTexts env cache := by
      rw [hsplit]
      simp [normalisedTexts, bump]
    refine ⟨⟨?_, by rw [htexts]; exact hsep.2⟩, ?_⟩
    · intro p hp
      rcases List.mem_append.1 hp with hp | hp
      · exact hsep.1 p (by rw [hsplit]; exact List.mem_append_left _ hp)
      · rcases List.mem_cons.1 hp with hp | hp
        · rw [hp]
          exact hsep.1 (mk, entry) (by rw [hsplit]; simp)
        · exact hsep.1 p (by rw [hsplit]; simp [hp])
    · intro p hp
      right
      rcases List.mem_append.1 hp with hp | hp
      · exact ⟨p, by rw [hsplit]; exact List.mem_append_left _ hp, rfl⟩
      · rcases List.mem_cons.1 hp with hp | hp
        · exact ⟨(mk, entry), by rw [hsplit]; simp, by rw [hp]; rfl⟩
        · exact ⟨p, by rw [hsplit]; simp [hp], rfl⟩

theorem separated_run (env : Env) (calls : List Call) (cache : Cache)
    (hsep : Separated env cache) (hnodup : (handlesOf calls).Nodup)
    (hfresh : ∀ p ∈ cache, p.2.node ∉ handlesOf calls) :
    Separated env (run env cache calls) ∧
      ∀ p ∈ run env cache calls,
        p.2.node ∈ handlesOf calls ∨ ∃ q ∈ cache, q.2.node = p.2.node := by
  induction calls generalizing cache with
  | nil => exact ⟨hsep, fun p hp => Or.inr ⟨p, hp, rfl⟩⟩
  | cons c rest ih =>
    cases c with
    | sweep now =>
      simp only [handlesOf] at hnodup hfresh ⊢
      have hsub := cleanCache_sublist env now cache
      obtain ⟨h1, h2⟩ := ih (step env cache (Call.sweep now)) (separated_of_sublist hsub hsep)
        hnodup (fun p hp => hfresh p (hsub.subset hp))
      refine ⟨h1, ?_⟩
      intro p hp
      rcases h2 p hp with h | ⟨q, hq, hqp⟩
      · exact Or.inl h
      · exact Or.inr ⟨q, hsub.subset hq, hqp⟩
    | ingest msg now =>
      simp only [handlesOf, List.nodup_cons, List.mem_cons, not_or] at hnodup hfresh ⊢
      obtain ⟨hs1, hs2⟩ := separated_ingest env msg now hsep
        (fun p hp => fun h => (hfresh p hp).1 h)
      have hfresh' : ∀ p ∈ step env cache (Call.ingest msg now), p.2.node ∉ handlesOf rest := by
        intro p hp
        rcases hs2 p hp with h | ⟨q, hq, hqp⟩
        · rw [h]; exact hnodup.1
        · rw [← hqp]; exact (hfresh q hq).2
      obtain ⟨h1, h2⟩ := ih (step env cache (Call.ingest msg now)) hs1 hnodup.2 hfresh'
      refine ⟨h1, ?_⟩
      intro p hp
      rcases h2 p hp with h | ⟨q, hq, hqp⟩
      · exact Or.inl (Or.inr h)
      · rcases hs2 q hq with h | ⟨r, hr, hrq⟩
        · exact Or.inl (Or.inl (by rw [← hqp, h]))
        · exact Or.inr ⟨r, hr, by rw [hrq, hqp]⟩

/-- C20 (live entries never match one another). Start from the empty cache
and make any sequence of calls in which every message arrives on a node not
used before. Then in the cache reached no entry passes the exact, the
repetition or the fuzzy test against another entry, in either direction. So a
further message with text, not from the current user and on a new node, whose
normalised text equals that of an entry `(k, e)` of that cache, is merged into
`(k, e)` as an exact match, `(k, e)` being bumped in place. -/
theorem live_entries_never_match (env : Env) (calls : List Call)
    (hfresh : (handlesOf calls).Nodup) :
    (run env [] calls).Pairwise (fun p q =>
        ¬ textsMatch env (normalise env p.2.originalText) (normalise env q.2.originalText) ∧
        ¬ textsMatch env (normalise env q.2.originalText) (normalise env p.2.originalText)) ∧
      ∀ (msg : Message) (now : Int) (pre post : Cache) (k : Str) (e : Entry),
        run env [] calls = pre ++ (k, e) :: post →
        msg.addedNode ∉ handlesOf calls → msg.messageText ≠ [] →
        env.toLowerCase msg.author ≠ env.currentUser →
        normalise env msg.messageText = normalise env e.originalText →
        ingest env msg now (run env [] calls) =
          (pre ++ (k, bump now e) :: post, Decision.merged k (e.count + 1) true) := by
  obtain ⟨⟨_, hpair⟩, hnodes⟩ := separated_run env calls []
    ⟨fun p hp => by simp at hp, by simp [normalisedTexts]⟩ hfresh (fun p hp => by simp at hp)
  have hpair' : (run env [] calls).Pairwise (fun p q =>
      ¬ textsMatch env (normalise env p.2.originalText) (normalise env q.2.originalText)) := by
    unfold normalisedTexts at hpair
    exact List.pairwise_map.1 hpair
  refine ⟨hpair'.imp (fun h => ⟨h, fun h' => h ((textsMatch_comm env _ _).1 h')⟩), ?_⟩
  intro msg now pre post k e hsplit hnode ht hself hnorm
  have hd := (run_keys_empty env calls).2
  rw [hsplit] at hpair' hd hnodes ⊢
  have hscanned : ∀ p ∈ pre ++ (k, e) :: post, scanned msg.addedNode p.2 := by
    intro p hp heq
    rcases hnodes p hp with h | ⟨q, hq, _⟩
    · exact hnode (heq ▸ h)
    · simp at hq
  rw [List.pairwise_append] at hpair'
  apply ingest_first_match env msg now pre post k e true ht hself hd
  · intro p hp
    apply testEntry_none_of_not_textsMatch
    rw [hnorm]
    exact fun hm => hpair'.2.2 p hp (k, e) (List.mem_cons_self _ _)
      ((textsMatch_comm env _ _).1 hm)
  · exact testEntry_exact (hscanned (k, e) (by simp)) hnorm.symm

/-- Witness of `live_entries_never_match`: after `hello`, `good game`, a
firing of the timer and `hello` again, on the nodes 1, 2 and 3, the cache
holds `hello` and `good game`; `Good Game` then arrives on node 4 and is
merged into the second entry as an exact match. -/
theorem live_entries_never_match_witness :
    (handlesOf freshCalls).Nodup ∧
    run plainEnv [] freshCalls =
      [(utf16 "hello", ⟨2, 3500, 1, utf16 "hello", utf16 "ann"⟩),
       (utf16 "good game", ⟨1, 2000, 2, utf16 "good game", utf16 "bob"⟩)] ∧
    (run plainEnv [] freshCalls).Pairwise (fun p q =>
      ¬ textsMatch plainEnv (normalise plainEnv p.2.originalText)
          (normalise plainEnv q.2.originalText) ∧
      ¬ textsMatch plainEnv (normalise plainEnv q.2.originalText)
          (normalise plainEnv p.2.originalText)) ∧
    ingest plainEnv ⟨utf16 "dee", utf16 "Good Game", 4⟩ 4000 (run plainEnv [] freshCalls) =
      ([(utf16 "hello", ⟨2, 3500, 1, utf16 "hello", utf16 "ann"⟩),
        (utf16 "good game", ⟨2, 4000, 2, utf16 "good game", utf16 "bob"⟩)],
        Decision.merged (utf16 "good game") 2 true) :=
  ⟨by decide, by decide, (live_entries_never_match plainEnv freshCalls (by decide)).1,
    (live_entries_never_match plainEnv freshCalls (by decide)).2
      ⟨utf16 "dee", utf16 "Good Game", 4⟩ 4000
      [(utf16 "hello", ⟨2, 3500, 1, utf16 "hello", utf16 "ann"⟩)] [] (utf16 "good game")
      ⟨1, 2000, 2, utf16 "good game", utf16 "bob"⟩ (by decide) (by decide) (by decide)
      (by decide) (by decide)⟩

/-! ## At the default threshold the doubles agree with exact arithmetic -/

theorem nearestDouble_den_pos (n d : Nat) : 0 < (nearestDouble n d).2 := by
  unfold nearestDouble
  split
  · exact Nat.one_pos
  · split
    · exact Nat.one_pos
    · exact Nat.pos_pow_of_pos _ (by decide)

theorem doubleValue_le_iff (x y : Nat × Nat) (hx : 0 < x.2) (hy : 0 < y.2) :
    doubleValue y ≤ doubleValue x ↔ y.1 * x.2 ≤ x.1 * y.2 := by
  unfold doubleValue
  have hx' : (0 : ℚ) < (x.2 : ℚ) := by exact_mod_cast hx
  have hy' : (0 : ℚ) < (y.2 : ℚ) := by exact_mod_cast hy
  rw [div_le_div_iff₀ hy' hx']
  exact_mod_cast Iff.rfl

theorem editDistance_le_max (a b : Str) : editDistance a b ≤ max a.length b.length := by
  induction a generalizing b with
  | nil => simp [editDistance]
  | cons x xs ih =>
    cases b with
    | nil => rw [editDistance_nil_right]; simp
    | cons y ys =>
      have h1 := editDistance_cons_cons_le x y xs ys
      have h2 := ih ys
      have h3 : (if x = y then 0 else 1) ≤ 1 := by split <;> omega
      simp only [List.length_cons]
      omega

theorem levenshtein_le_max (a b : Str) : levenshtein a b ≤ max a.length b.length := by
  rw [levenshtein_eq_editDistance]; exact editDistance_le_max a b

theorem agreesUpTo_hundred : agreesUpTo 100 = true := by decide!

theorem rounded_agrees (m d : Nat) (hm : 0 < m) (hm' : m ≤ 100) (hd : d ≤ m) :
    (nearestDouble 9 10).1 *
        (nearestDouble ((nearestDouble d m).2 - (nearestDouble d m).1) (nearestDouble d m).2).2 ≤
      (nearestDouble ((nearestDouble d m).2 - (nearestDouble d m).1) (nearestDouble d m).2).1 *
        (nearestDouble 9 10).2 ↔
      9 * m + 10 * d ≤ 10 * m := by
  have h := agreesUpTo_hundred
  unfold agreesUpTo at h
  rw [List.all_eq_true] at h
  have h1 := h m (List.mem_range.2 (by omega))
  rw [List.all_eq_true] at h1
  have h2 := h1 d (List.mem_range.2 (by omega))
  have hm0 : (m == 0) = false := by simpa using hm.ne'
  rw [hm0, Bool.false_or, beq_iff_eq, decide_eq_decide] at h2
  exact h2

theorem similarityDouble_ge_default_iff (a b : Str) (ha : a.length ≤ 100)
    (hb : b.length ≤ 100) (hpos : 0 < max a.length b.length) :
    doubleValue (nearestDouble 9 10) ≤ doubleValue (similarityDouble a b) ↔
      (9 : ℚ) / 10 ≤ 1 - (levenshtein a b : ℚ) / ((max a.length b.length : ℕ) : ℚ) := by
  have hsim : similarityDouble a b =
      nearestDouble
        ((nearestDouble (levenshtein a b) (max a.length b.length)).2 -
          (nearestDouble (levenshtein a b) (max a.length b.length)).1)
        (nearestDouble (levenshtein a b) (max a.length b.length)).2 := by
    unfold similarityDouble
    simp only
    rw [if_neg (by omega)]
  rw [hsim, doubleValue_le_iff _ _ (nearestDouble_den_pos _ _) (nearestDouble_den_pos _ _),
    rounded_agrees _ _ hpos (by omega) (levenshtein_le_max a b)]
  have := le_one_sub_div_iff 9 10 (levenshtein a b) (max a.length b.length) (by decide) hpos
  rw [← this]
  norm_num

theorem fuzzyTestDouble_default (env : Env) (a b : Str)
    (hthr : env.LEVENSHTEIN_SIMILARITY_THRESHOLD = doubleValue (nearestDouble 9 10))
    (hne : a ≠ b) :
    fuzzyTestDouble env a b = true ↔
      env.USE_LEVENSHTEIN = true ∧ a.length ≤ 100 ∧ b.length ≤ 100 ∧
        (9 : ℚ) / 10 ≤ 1 - (levenshtein a b : ℚ) / ((max a.length b.length : ℕ) : ℚ) := by
  have hpos : 0 < max a.length b.length := by
    rcases a with _ | ⟨x, a⟩
    · rcases b with _ | ⟨y, b⟩
      · exact absurd rfl hne
      · simp
    · simp
  simp only [fuzzyTestDouble, Bool.and_eq_true, decide_eq_true_eq, and_assoc, ge_iff_le, hthr]
  constructor
  · rintro ⟨h1, h2, h3, h4⟩
    exact ⟨h1, h2, h3, (similarityDouble_ge_default_iff a b h2 h3 hpos).1 h4⟩
  · rintro ⟨h1, h2, h3, h4⟩
    exact ⟨h1, h2, h3, (similarityDouble_ge_default_iff a b h2 h3 hpos).2 h4⟩

theorem testEntryDouble_eq (env : Env) (t : Str) (h : Handle) (e : Entry) :
    testEntryDouble env t h e =
      if e.node = h then none
      else if t = normalise env e.originalText then some true
      else if repetitionTest t (normalise env e.originalText) ∨
          fuzzyTestDouble env t (normalise env e.originalText) then some false
      else none := by
  unfold testEntryDouble repetitionTest fuzzyTestDouble
  simp only
  split
  · rfl
  · split
    · rfl
    · by_cases hr : (isRepetitive t && isRepetitive (normalise env e.originalText) &&
          decide (t.head? = (normalise env e.originalText).head?)) = true
      · simp [hr]
      · by_cases hl : (env.USE_LEVENSHTEIN && decide (t.length ≤ 100) &&
            decide ((normalise env e.originalText).length ≤ 100)) = true
        · by_cases hsim : doubleValue (similarityDouble t (normalise env e.originalText)) ≥
              env.LEVENSHTEIN_SIMILARITY_THRESHOLD
          · simp [hr, hl, hsim]
          · simp [hr, hl, hsim]
        · simp [hr, hl]

/-- With the threshold at the double nearest to 0.9, the tests in doubles
give, on every entry, what the tests in exact arithmetic give with the
threshold 9/10. -/
theorem testEntryDouble_default (env env' : Env) (t : Str) (h : Handle) (e : Entry)
    (hthr : env.LEVENSHTEIN_SIMILARITY_THRESHOLD = doubleValue (nearestDouble 9 10))
    (hthr' : env'.LEVENSHTEIN_SIMILARITY_THRESHOLD = 9 / 10)
    (hcase : env'.IGNORE_CASE = env.IGNORE_CASE) (hlower : env'.toLowerCase = env.toLowerCase)
    (huse : env'.USE_LEVENSHTEIN = env.USE_LEVENSHTEIN) :
    testEntryDouble env t h e = testEntry env' t h e := by
  have hn : normalise env' e.originalText = normalise env e.originalText := by
    simp [normalise, hcase, hlower]
  rw [testEntryDouble_eq, testEntry_eq, hn]
  by_cases h1 : e.node = h
  · rw [if_pos h1, if_pos h1]
  rw [if_neg h1, if_neg h1]
  by_cases h2 : t = normalise env e.originalText
  · rw [if_pos h2, if_pos h2]
  rw [if_neg h2, if_neg h2]
  have hf : fuzzyTestDouble env t (normalise env e.originalText) = true ↔
      fuzzyTest env' t (normalise env e.originalText) = true := by
    rw [fuzzyTestDouble_default env _ _ hthr h2, fuzzyTest_iff, hthr', huse]
    have hpos : 0 < max t.length (normalise env e.originalText).length := by
      rcases ht : t with _ | ⟨x, a⟩
      · rcases hc : normalise env e.originalText with _ | ⟨y, b⟩
        · exact absurd (by rw [ht, hc]) h2
        · simp
      · simp
    rw [similarity_of_pos _ _ hpos]
  simp only [hf]

theorem fifthEnv_threshold :
    fifthEnv.LEVENSHTEIN_SIMILARITY_THRESHOLD = doubleValue (nearestDouble 1 5) := rfl

theorem similarityDouble_den_pos (a b : Str) : 0 < (similarityDouble a b).2 := by
  unfold similarityDouble
  simp only
  split
  · exact Nat.one_pos
  · exact nearestDouble_den_pos _ _

theorem testEntryDouble_none_of_lt {env : Env} {t : Str} {h : Handle} {e : Entry}
    (hne : t ≠ normalise env e.originalText)
    (hrep : repetitionTest t (normalise env e.originalText) = false)
    (hlt : doubleValue (similarityDouble t (normalise env e.originalText)) <
      env.LEVENSHTEIN_SIMILARITY_THRESHOLD) :
    testEntryDouble env t h e = none := by
  rw [testEntryDouble_eq]
  by_cases h1 : e.node = h
  · rw [if_pos h1]
  · rw [if_neg h1, if_neg hne, if_neg]
    simp only [hrep, Bool.false_eq_true, false_or, fuzzyTestDouble, Bool.and_eq_true,
      decide_eq_true_eq, not_and, ge_iff_le, not_le]
    exact fun _ => hlt

/-- C7 as stated fails, whichever number the threshold stands for. With the
threshold set to 0.2, `abcde` against the cached `axxxx` has the exact
similarity `1 - 4/5 = 1/5`, which reaches 0.2, but the engine computes the
double below it and the entry does not match. And with the default threshold,
the double nearest to 0.9 lies above 9/10, so the exact similarity 9/10 of
`abcdefghij` against `abcdefghiz` is below that number, yet the entry
matches. -/
theorem fuzzy_threshold_counterexample :
    ((1 : ℚ) / 5 ≤ 1 - (levenshtein (utf16 "abcde") (utf16 "axxxx") : ℚ) /
        ((max (utf16 "abcde").length (utf16 "axxxx").length : ℕ) : ℚ) ∧
      testEntryDouble fifthEnv (utf16 "abcde") 2 ⟨1, 1000, 1, utf16 "axxxx", utf16 "ann"⟩ =
        none) ∧
    (1 - (levenshtein (utf16 "abcdefghij") (utf16 "abcdefghiz") : ℚ) /
        ((max (utf16 "abcdefghij").length (utf16 "abcdefghiz").length : ℕ) : ℚ) <
        (doubleEnv (utf16 "me")).LEVENSHTEIN_SIMILARITY_THRESHOLD ∧
      testEntryDouble (doubleEnv (utf16 "me")) (utf16 "abcdefghij") 2
        ⟨1, 1000, 1, utf16 "abcdefghiz", utf16 "ann"⟩ = some false) := by
  have hl1 : levenshtein (utf16 "abcde") (utf16 "axxxx") = 4 := by decide
  have hm1 : max (utf16 "abcde").length (utf16 "axxxx").length = 5 := by decide
  have hl2 : levenshtein (utf16 "abcdefghij") (utf16 "abcdefghiz") = 1 := by decide
  have hm2 : max (utf16 "abcdefghij").length (utf16 "abcdefghiz").length = 10 := by decide
  refine ⟨⟨?_, ?_⟩, ⟨?_, ?_⟩⟩
  · rw [hl1, hm1]; norm_num
  · have hn : normalise fifthEnv (utf16 "axxxx") = utf16 "axxxx" := by decide
    have hlt : doubleValue (similarityDouble (utf16 "abcde") (normalise fifthEnv (utf16 "axxxx"))) <
        fifthEnv.LEVENSHTEIN_SIMILARITY_THRESHOLD := by
      rw [hn, fifthEnv_threshold, ← not_le,
        doubleValue_le_iff _ _ (similarityDouble_den_pos _ _) (nearestDouble_den_pos _ _)]
      decide
    exact testEntryDouble_none_of_lt (by decide) (by decide) hlt
  · rw [hl2, hm2]
    have hv : (doubleEnv (utf16 "me")).LEVENSHTEIN_SIMILARITY_THRESHOLD =
        ((8106479329266893 : ℕ) : ℚ) / ((9007199254740992 : ℕ) : ℚ) := by
      have : nearestDouble 9 10 = (8106479329266893, 9007199254740992) := by decide
      simp only [doubleEnv, doubleValue, this]
    rw [hv]; norm_num
  · rw [testEntryDouble_default (doubleEnv (utf16 "me")) (defaultEnv (utf16 "me")) _ _ _ rfl rfl
      rfl rfl rfl, testEntry_eq]
    rw [if_neg (by decide), if_neg (by decide), if_pos]
    right
    rw [fuzzyTest_eq_decide _ _ _ 9 10 (by decide) (defaultEnv_threshold _) (by decide)]
    decide

/-- C7, amended. Let the fuzzy test be switched on and the threshold be the
default, the double nearest to 0.9. Let `t` be the normalised incoming text
and `c` the normalised text of an entry the scan looks at, both of at most 100
code units, different, and not passing the repetition test. Then the entry
matches (as a non-exact match), in the doubles the engine computes, if and
only if the exact number `1 - levenshtein t c / max (length t) (length c)` is
at least 9/10, and the scan moves on otherwise. In particular two strings of
10 code units that differ by one substitution have similarity exactly 9/10
and match, and every pair of similarity below 9/10 does not. -/
theorem fuzzy_threshold_default (env : Env) (t c : Str) (h : Handle) (e : Entry)
    (hthr : env.LEVENSHTEIN_SIMILARITY_THRESHOLD = doubleValue (nearestDouble 9 10))
    (hc : normalise env e.originalText = c) (huse : env.USE_LEVENSHTEIN = true)
    (hscan : scanned h e) (hlt : t.length ≤ 100) (hlc : c.length ≤ 100) (hne : t ≠ c)
    (hrep : repetitionTest t c = false) :
    (testEntryDouble env t h e = some false ↔
      (9 : ℚ) / 10 ≤ 1 - (levenshtein t c : ℚ) / ((max t.length c.length : ℕ) : ℚ)) ∧
    (testEntryDouble env t h e = none ↔
      1 - (levenshtein t c : ℚ) / ((max t.length c.length : ℕ) : ℚ) < 9 / 10) ∧
    ((∃ x y u v, u ≠ v ∧ t = x ++ u :: y ∧ c = x ++ v :: y ∧ t.length = 10) →
      1 - (levenshtein t c : ℚ) / ((max t.length c.length : ℕ) : ℚ) = 9 / 10 ∧
        testEntryDouble env t h e = some false) := by
  have hfz : fuzzyTestDouble env t c = true ↔
      (9 : ℚ) / 10 ≤ 1 - (levenshtein t c : ℚ) / ((max t.length c.length : ℕ) : ℚ) := by
    rw [fuzzyTestDouble_default env t c hthr hne]
    exact ⟨fun h' => h'.2.2.2, fun h' => ⟨huse, hlt, hlc, h'⟩⟩
  have hte : testEntryDouble env t h e =
      if fuzzyTestDouble env t c = true then some false else none := by
    rw [testEntryDouble_eq, if_neg hscan, hc, if_neg hne]
    simp [hrep]
  have h1 : testEntryDouble env t h e = some false ↔
      (9 : ℚ) / 10 ≤ 1 - (levenshtein t c : ℚ) / ((max t.length c.length : ℕ) : ℚ) := by
    rw [hte, ← hfz]
    by_cases hf : fuzzyTestDouble env t c = true <;> simp [hf]
  have h2 : testEntryDouble env t h e = none ↔
      1 - (levenshtein t c : ℚ) / ((max t.length c.length : ℕ) : ℚ) < 9 / 10 := by
    rw [← not_le, ← hfz, hte]
    by_cases hf : fuzzyTestDouble env t c = true <;> simp [hf]
  refine ⟨h1, h2, ?_⟩
  rintro ⟨x, y, u, v, huv, htx, hcx, hlen⟩
  have hl : levenshtein t c = 1 := by
    rw [htx, hcx]; exact levenshtein_one_substitution x y u v huv
  have hlen' : c.length = 10 := by
    rw [hcx]; rw [htx] at hlen; simpa using hlen
  have hval : 1 - (levenshtein t c : ℚ) / ((max t.length c.length : ℕ) : ℚ) = 9 / 10 := by
    rw [hl, hlen, hlen']; norm_num
  exact ⟨hval, h1.2 (by rw [hval])⟩

/-- Witness of `fuzzy_threshold_default`: `abcdefghij` against the cached
`abcdefghiz` under the default threshold. -/
theorem fuzzy_threshold_default_witness :
    (doubleEnv (utf16 "me")).USE_LEVENSHTEIN = true ∧
    utf16 "abcdefghij" ≠ utf16 "abcdefghiz" ∧
    repetitionTest (utf16 "abcdefghij") (utf16 "abcdefghiz") = false ∧
    1 - (levenshtein (utf16 "abcdefghij") (utf16 "abcdefghiz") : ℚ) /
        ((max (utf16 "abcdefghij").length (utf16 "abcdefghiz").length : ℕ) : ℚ) = 9 / 10 ∧
    testEntryDouble (doubleEnv (utf16 "me")) (utf16 "abcdefghij") 2
        ⟨1, 1000, 1, utf16 "abcdefghiz", utf16 "ann"⟩ = some false :=
  ⟨rfl, by decide, by decide,
    (fuzzy_threshold_default (doubleEnv (utf16 "me")) (utf16 "abcdefghij")
      (utf16 "abcdefghiz") 2 ⟨1, 1000, 1, utf16 "abcdefghiz", utf16 "ann"⟩ rfl (by decide) rfl
      (by decide) (by decide) (by decide) (by decide) (by decide)).2.2
      ⟨utf16 "abcdefghi", [], 106, 122, by decide, by decide, by decide, by decide⟩⟩

end ChatDedup
